import Mathlib

/-!
# Bag ADT over a linked list (`bag.c`)

A shallow embedding of `src/bag.c`.  The C heap is split into two typed
arenas: byte blocks (what `emalloc(n)` returns for item storage and what the
caller owns) and `struct link` cells.  An address is the index of the object
in its arena; the null pointer is `none`.  The `struct bag` record is threaded
explicitly through the operations.  The `int` field `size` is an `Int` kept in
the 32-bit two's-complement range by `wrapInt`.
-/

namespace BagC

/-- One byte of an item. -/
abbrev Byte := Fin 256

/-- The C type `struct link` (`node`): `item` is the address of the byte
block with the copy, `nItem` the byte count, `next` the successor cell. -/
structure node where
  item : Nat
  nItem : Nat
  next : Option Nat
  deriving DecidableEq, Inhabited

/-- The C type `struct bag`. -/
structure bag where
  head : Option Nat
  current : Option Nat
  size : Int
  deriving DecidableEq

/-- The heap: byte blocks and list cells, each addressed by position. -/
structure Heap where
  bufs : List (List Byte)
  nodes : List node
  deriving DecidableEq

/-- Reduction of an integer to the range of a 32-bit two's-complement `int`:
what `bag->size++` leaves on two's-complement targets once the count passes
`INT_MAX` (in C the overflow of a signed `int` is undefined). -/
def wrapInt (x : Int) : Int := (x + 2147483648) % 4294967296 - 2147483648

/-- Modelled from the spec: emalloc (declared in the absent `util.h`), the
allocation-failure-checked allocator: it always hands back a fresh block of
the requested byte count (the process ends otherwise).  The fresh bytes are
zero. -/
def emalloc (h : Heap) (n : Nat) : Heap × Nat :=
  ({ h with bufs := h.bufs ++ [List.replicate n 0] }, h.bufs.length)

/-- Modelled from the spec: emalloc at `sizeof(node)`, handing back a fresh
list cell whose fields are not yet set. -/
def emallocNode (h : Heap) : Heap × Nat :=
  ({ h with nodes := h.nodes ++ [default] }, h.nodes.length)

/-- The libc `memcpy(dst, src, n)` between two byte blocks: defined only when
the two blocks exist, are distinct and hold at least `n` bytes each. -/
def memcpy (h : Heap) (dst src n : Nat) : Option Heap :=
  match h.bufs[dst]?, h.bufs[src]? with
  | some d, some s =>
    if dst ≠ src ∧ n ≤ d.length ∧ n ≤ s.length then
      some { h with bufs := h.bufs.set dst (s.take n ++ d.drop n) }
    else none
  | _, _ => none

/-- Assignment to the fields of the cell at address `p`. -/
def setNode (h : Heap) (p : Nat) (f : node → node) : Heap :=
  match h.nodes[p]? with
  | none => h
  | some nd => { h with nodes := h.nodes.set p (f nd) }

/-- The function `newBag` of `bag.c`. -/
def newBag : bag :=
  { head := none, current := none, size := 0 }

/-- The function `add` of `bag.c`; `item` is the address of the caller's
buffer.  `none` stands for the undefined behaviour of a `memcpy` that reads
outside the caller's buffer. -/
def add (h : Heap) (b : bag) (item nItem : Nat) : Option (Heap × bag) :=
  let oldfirst := b.head
  let (h1, p) := emallocNode h
  let b1 := { b with head := some p }
  let (h2, q) := emalloc h1 nItem
  let h3 := setNode h2 p (fun nd => { nd with item := q })
  match memcpy h3 q item nItem with
  | none => none
  | some h4 =>
    let h5 := setNode h4 p (fun nd => { nd with nItem := nItem })
    let h6 := setNode h5 p (fun nd => { nd with next := oldfirst })
    some (h6, { b1 with size := wrapInt (b1.size + 1) })

/-- The function `size` of `bag.c`. -/
def size (b : bag) : Int := b.size

/-- The function `isEmpty` of `bag.c`. -/
def isEmpty (b : bag) : Bool := b.size == 0

/-- Lines 175-178 of `itens`: a fresh block of `current->nItem` bytes filled
from `current->item`.  `none` stands for the dereference of a null or dangling
`current`. -/
def copyCurrent (h : Heap) (b : bag) : Option (Heap × bag × Option Nat) :=
  match b.current with
  | none => none
  | some c =>
    match h.nodes[c]? with
    | none => none
    | some nd =>
      let (h1, p) := emalloc h nd.nItem
      match memcpy h1 p nd.item nd.nItem with
      | none => none
      | some h2 => some (h2, b, some p)

/-- The function `itens` of `bag.c`.  The result carries the heap and bag
after the call and the returned pointer (`none` for `NULL`); the outer `none`
stands for undefined behaviour. -/
def itens (h : Heap) (b : bag) (init : Bool) : Option (Heap × bag × Option Nat) :=
  if isEmpty b then some (h, b, none)
  else if init then copyCurrent h { b with current := b.head }
  else
    match b.current with
    | none => some (h, b, none)
    | some c =>
      match h.nodes[c]? with
      | none => none
      | some nd =>
        match nd.next with
        | none => some (h, b, none)
        | some n => copyCurrent h { b with current := some n }

/-! ## The caller's side -/

/-- The caller puts the bytes `x` into a buffer of its own. -/
def store (h : Heap) (x : List Byte) : Heap × Nat :=
  ({ h with bufs := h.bufs ++ [x] }, h.bufs.length)

/-- The caller overwrites the block at address `p` with `w`. -/
def write (h : Heap) (p : Nat) (w : List Byte) : Heap :=
  { h with bufs := h.bufs.set p w }

/-- What the caller finds behind a returned pointer: `some none` for `NULL`,
`some (some x)` for a block holding the bytes `x`, and `none` for a pointer to
no block. -/
def readResult (h : Heap) : Option Nat → Option (Option (List Byte))
  | none => some none
  | some p => (h.bufs[p]?).map some

/-- The caller stores `x` in a buffer and adds it with its byte count. -/
def addItem (h : Heap) (b : bag) (x : List Byte) : Option (Heap × bag) :=
  add (store h x).1 b (store h x).2 x.length

/-- The caller adds the items of `xs`, first to last. -/
def addAll (h : Heap) (b : bag) : List (List Byte) → Option (Heap × bag)
  | [] => some (h, b)
  | x :: xs =>
    match addItem h b x with
    | none => none
    | some (h1, b1) => addAll h1 b1 xs

/-- The caller makes the calls `itens(bag, i)` for the flags `i` of the list
in turn and records what each returned pointer refers to. -/
def calls (h : Heap) (b : bag) : List Bool →
    Option (List (Option (List Byte)) × Heap × bag)
  | [] => some ([], h, b)
  | i :: is =>
    match itens h b i with
    | none => none
    | some (h1, b1, r) =>
      match readResult h1 r, calls h1 b1 is with
      | some v, some (rs, h2, b2) => some (v :: rs, h2, b2)
      | _, _ => none

/-! ## Representation -/

/-- The cells met from the pointer `p` on, following `next` up to `NULL`:
`Chain h p l` holds when they are the cells at the addresses listed in `l`, in
that order, each with the listed bytes as its stored item and their number as
its stored length. -/
def Chain (h : Heap) : Option Nat → List (Nat × List Byte) → Prop
  | p, [] => p = none
  | p, (a, x) :: l =>
    p = some a ∧ ∃ nd, h.nodes[a]? = some nd ∧ nd.nItem = x.length ∧
      h.bufs[nd.item]? = some x ∧ Chain h nd.next l

/-- The cursor `cur` read against the chain `l`: absent (`none`), or on the
cell at position `k` of the chain (`some k`). -/
def CursorAt (l : List (Nat × List Byte)) (cur : Option Nat) : Option Nat → Prop
  | none => cur = none
  | some k => ∃ ax, l[k]? = some ax ∧ cur = some ax.1

/-- The representation invariant of a bag in a heap: `head` leads through the
chain `l`, the cursor is absent or on a cell of `l`, and the `int` count is
the number of cells in 32-bit arithmetic. -/
structure Rep (h : Heap) (b : bag) (l : List (Nat × List Byte))
    (pos : Option Nat) : Prop where
  chain : Chain h b.head l
  cursor : CursorAt l b.current pos
  count : b.size = wrapInt l.length

/-- The states a caller can bring a bag to: `newBag` in any heap, then calls
of `add` and `itens` whose behaviour is defined, buffers the caller allocates,
and writes of the caller into blocks that no list cell refers to. -/
inductive Reachable : Heap → bag → Prop
  | newBag (h : Heap) : Reachable h newBag
  | add {h h1 : Heap} {b b1 : bag} (item nItem : Nat) :
      Reachable h b → add h b item nItem = some (h1, b1) → Reachable h1 b1
  | itens {h h1 : Heap} {b b1 : bag} {r : Option Nat} (init : Bool) :
      Reachable h b → itens h b init = some (h1, b1, r) → Reachable h1 b1
  | store {h : Heap} {b : bag} (x : List Byte) :
      Reachable h b → Reachable (store h x).1 b
  | write {h : Heap} {b : bag} (p : Nat) (w : List Byte) :
      Reachable h b → (∀ nd ∈ h.nodes, nd.item ≠ p) → Reachable (write h p w) b

/-- The result of `itens` read on the chain: the new cursor position and the
bytes returned, for a bag with chain `l`, count `sz` and cursor position
`pos`. -/
def absItens (l : List (Nat × List Byte)) (sz : Int) (pos : Option Nat)
    (init : Bool) : Option Nat × Option (List Byte) :=
  if sz = 0 then (pos, none)
  else if init then (some 0, (l[0]?).map Prod.snd)
  else
    match pos with
    | none => (none, none)
    | some k =>
      if k + 1 < l.length then (some (k + 1), (l[k + 1]?).map Prod.snd)
      else (some k, none)

/-- The results of a sequence of `itens` calls read on the chain. -/
def absCalls (l : List (Nat × List Byte)) (sz : Int) :
    Option Nat → List Bool → List (Option (List Byte)) × Option Nat
  | pos, [] => ([], pos)
  | pos, i :: is =>
    ((absItens l sz pos i).2 :: (absCalls l sz (absItens l sz pos i).1 is).1,
     (absCalls l sz (absItens l sz pos i).1 is).2)

/-- The heap `h1` is `h` with further blocks and cells allocated after it. -/
def Extends (h h1 : Heap) : Prop := h.bufs <+: h1.bufs ∧ h.nodes <+: h1.nodes

/-- One call of the caller on the bag: `add` of a buffer holding `x` with its
byte count, or `itens` with the flag `init`. -/
inductive Op where
  | add (x : List Byte)
  | itens (init : Bool)
  deriving DecidableEq

/-- The effect of one call on the heap and the bag. -/
def step (h : Heap) (b : bag) : Op → Option (Heap × bag)
  | Op.add x => addItem h b x
  | Op.itens i =>
    match itens h b i with
    | none => none
    | some (h1, b1, _) => some (h1, b1)

/-- The effect of a sequence of calls, first to last. -/
def run (h : Heap) (b : bag) : List Op → Option (Heap × bag)
  | [] => some (h, b)
  | o :: os =>
    match step h b o with
    | none => none
    | some (h1, b1) => run h1 b1 os

/-- The number of `add` calls in a sequence of calls. -/
def numAdds : List Op → Nat
  | [] => 0
  | Op.add _ :: os => numAdds os + 1
  | Op.itens _ :: os => numAdds os

/-- The caller's loop `while ((p = itens(bag, FALSE)) != NULL)`, collecting
the bytes behind each returned pointer; `fuel` bounds the number of calls and
`none` is returned when it runs out (or on undefined behaviour). -/
def advance : Nat → Heap → bag → Option (List (List Byte) × Heap × bag)
  | 0, _, _ => none
  | fuel + 1, h, b =>
    match itens h b false with
    | none => none
    | some (h1, b1, none) => some ([], h1, b1)
    | some (h1, b1, some p) =>
      match h1.bufs[p]?, advance fuel h1 b1 with
      | some x, some (rs, h2, b2) => some (x :: rs, h2, b2)
      | _, _ => none

/-- A full traversal by the caller: `itens(bag, TRUE)`, then `itens(bag,
FALSE)` until the result is `NULL`. -/
def traversal (fuel : Nat) (h : Heap) (b : bag) :
    Option (List (List Byte) × Heap × bag) :=
  match itens h b true with
  | none => none
  | some (h1, b1, none) => some ([], h1, b1)
  | some (h1, b1, some p) =>
    match h1.bufs[p]?, advance fuel h1 b1 with
    | some x, some (rs, h2, b2) => some (x :: rs, h2, b2)
    | _, _ => none

/-- The empty heap. -/
def emptyHeap : Heap := { bufs := [], nodes := [] }

/-- The byte string "a". -/
def exA : List Byte := [97]

/-- The byte string "bb". -/
def exB : List Byte := [98, 98]

/-- The byte string "ccc". -/
def exC : List Byte := [99, 99, 99]

/-- The heap after "a", "bb", "ccc" were added, in that order, to a new bag
in the empty heap. -/
def exHeap : Heap :=
  { bufs := [exA, exA, exB, exB, exC, exC],
    nodes := [{ item := 1, nItem := 1, next := none },
              { item := 3, nItem := 2, next := some 0 },
              { item := 5, nItem := 3, next := some 1 }] }

/-- The bag after "a", "bb", "ccc" were added to a new bag. -/
def exBag : bag := { head := some 2, current := none, size := 3 }

/-- The heap after a full traversal of the bag holding "a", "bb", "ccc":
three more blocks, the copies handed to the caller. -/
def exHeapEnd : Heap :=
  { bufs := [exA, exA, exB, exB, exC, exC, exC, exB, exA],
    nodes := [{ item := 1, nItem := 1, next := none },
              { item := 3, nItem := 2, next := some 0 },
              { item := 5, nItem := 3, next := some 1 }] }

/-- The bag holding "a", "bb", "ccc" after a full traversal: the cursor is on
the last cell. -/
def exBagEnd : bag := { head := some 2, current := some 0, size := 3 }

/-- The byte strings handed to the `add` calls of a sequence of calls, in the
order of the calls. -/
def added : List Op → List (List Byte)
  | [] => []
  | Op.add x :: os => x :: added os
  | Op.itens _ :: os => added os

/-- What a call of `free` releases: the byte block at an address, the list
cell at an address, or the bag structure. -/
inductive Freed where
  | item (p : Nat)
  | cell (a : Nat)
  | bagStruct
  deriving DecidableEq

/-- The libc `free` on the objects `t` released so far: releasing an object a
second time is undefined (`none`). -/
def free (t : List Freed) (x : Freed) : Option (List Freed) :=
  if x ∈ t then none else some (t ++ [x])

/-- The function `freeNode` of `bag.c`, on the list `t` of objects released so
far.  The result is the list of released objects after the call and the
greatest number of `freeNode` calls that were active at the same time, this
one included.  `none` stands for undefined behaviour (a released or dangling
cell is read, a block that does not exist or was released is released) and
for `fuel`, the bound on the nesting of the calls, running out. -/
def freeNode (h : Heap) : Nat → List Freed → Option Nat → Option (List Freed × Nat)
  | _, t, none => some (t, 1)
  | 0, _, some _ => none
  | fuel + 1, t, some a =>
    if Freed.cell a ∈ t then none
    else
      match h.nodes[a]? with
      | none => none
      | some nd =>
        match freeNode h fuel t nd.next with
        | none => none
        | some (t1, d) =>
          if Freed.cell a ∈ t1 then none
          else
            match h.bufs[nd.item]? with
            | none => none
            | some _ =>
              match free t1 (Freed.item nd.item) with
              | none => none
              | some t2 =>
                match free t2 (Freed.cell a) with
                | none => none
                | some t3 => some (t3, d + 1)

/-- The function `freeBag` of `bag.c`, started with nothing released: the
released objects in the order of their release, and the nesting depth of the
`freeNode` calls. -/
def freeBag (h : Heap) (fuel : Nat) (b : bag) : Option (List Freed × Nat) :=
  match freeNode h fuel [] b.head with
  | none => none
  | some (t, d) =>
    match free t Freed.bagStruct with
    | none => none
    | some t1 => some (t1, d)

/-- The cells met from the pointer `p` on up to `NULL`, each with its address
and its fields. -/
def Cells (h : Heap) : Option Nat → List (Nat × node) → Prop
  | p, [] => p = none
  | p, (a, nd) :: cs => p = some a ∧ h.nodes[a]? = some nd ∧ Cells h nd.next cs

/-- The releases of a chain of cells in the order `freeNode` makes them: the
cells after the first one, then the first cell's block, then the first cell. -/
def released : List (Nat × node) → List Freed
  | [] => []
  | c :: cs => released cs ++ [Freed.item c.2.item, Freed.cell c.1]

/-- What a bag owns in a heap: the cells `cs` of its chain, at distinct
addresses, with distinct blocks that exist. -/
structure Owns (h : Heap) (b : bag) (cs : List (Nat × node)) : Prop where
  cells : Cells h b.head cs
  addrs : (cs.map Prod.fst).Nodup
  items : (cs.map (fun c => c.2.item)).Nodup
  valid : ∀ c ∈ cs, c.1 < h.nodes.length ∧ c.2.item < h.bufs.length

/-! ## Basic facts -/

theorem set_length_append {α : Type} (l : List α) (x y : α) :
    (l ++ [x]).set l.length y = l ++ [y] := by
  induction l with
  | nil => rfl
  | cons a l ih => simp [ih]

theorem wrapInt_wrapInt_add (x y : Int) : wrapInt (wrapInt x + y) = wrapInt (x + y) := by
  unfold wrapInt
  omega

theorem wrapInt_of_lt (n : Nat) (hn : n < 2147483648) : wrapInt n = n := by
  unfold wrapInt
  omega

theorem wrapInt_natCast_eq_zero (n : Nat) : wrapInt n = 0 ↔ n % 4294967296 = 0 := by
  unfold wrapInt
  omega

theorem Chain.head_eq {h : Heap} {p : Option Nat} {l : List (Nat × List Byte)}
    (hc : Chain h p l) : p = (l.head?).map Prod.fst := by
  cases l with
  | nil => simpa [Chain] using hc
  | cons ax l => obtain ⟨a, x⟩ := ax; simpa [Chain] using hc.1

theorem Chain.mono {h h1 : Heap}
    (hn : ∀ (a : Nat) (nd : node), h.nodes[a]? = some nd → h1.nodes[a]? = some nd)
    (hb : ∀ (a : Nat) (nd : node) (x : List Byte), h.nodes[a]? = some nd → h.bufs[nd.item]? = some x →
      h1.bufs[nd.item]? = some x) :
    ∀ {p : Option Nat} {l : List (Nat × List Byte)}, Chain h p l → Chain h1 p l := by
  intro p l
  induction l generalizing p with
  | nil => exact id
  | cons ax l ih =>
    obtain ⟨a, x⟩ := ax
    rintro ⟨hp, nd, h1n, h2n, h3n, h4n⟩
    exact ⟨hp, nd, hn a nd h1n, h2n, hb a nd x h1n h3n, ih h4n⟩

theorem prefix_getElem? {α : Type} {l l1 : List α} (hp : l <+: l1) {i : Nat} {x : α}
    (hx : l[i]? = some x) : l1[i]? = some x := by
  obtain ⟨t, rfl⟩ := hp
  have hlt : i < l.length := by
    by_contra hc
    rw [List.getElem?_eq_none (by omega)] at hx
    cases hx
  rw [List.getElem?_append_left hlt]
  exact hx

theorem Extends.refl (h : Heap) : Extends h h := ⟨List.prefix_refl _, List.prefix_refl _⟩

theorem Extends.trans {h h1 h2 : Heap} (h01 : Extends h h1) (h12 : Extends h1 h2) :
    Extends h h2 := ⟨h01.1.trans h12.1, h01.2.trans h12.2⟩

theorem Chain.extend {h h1 : Heap} (he : Extends h h1) {p : Option Nat}
    {l : List (Nat × List Byte)} (hc : Chain h p l) : Chain h1 p l :=
  Chain.mono (fun _ _ hx => prefix_getElem? he.2 hx)
    (fun _ _ _ _ hx => prefix_getElem? he.1 hx) hc

theorem Chain.get {h : Heap} : ∀ {l : List (Nat × List Byte)} {p : Option Nat} {k : Nat}
    {ax : Nat × List Byte}, Chain h p l → l[k]? = some ax →
    ∃ nd, h.nodes[ax.1]? = some nd ∧ nd.nItem = ax.2.length ∧
      h.bufs[nd.item]? = some ax.2 ∧ Chain h nd.next (l.drop (k + 1))
  | [], _, _, _, _, hk => by simp at hk
  | (a, x) :: l, p, 0, ax, hc, hk => by
    obtain ⟨_, nd, h1, h2, h3, h4⟩ := hc
    simp at hk
    subst hk
    exact ⟨nd, h1, h2, h3, by simpa using h4⟩
  | (a, x) :: l, p, k + 1, ax, hc, hk => by
    obtain ⟨_, nd, h1, h2, h3, h4⟩ := hc
    simp at hk
    simpa using Chain.get h4 hk

theorem add_eq (h : Heap) (b : bag) (item n : Nat) (bs : List Byte)
    (hb : h.bufs[item]? = some bs) (hn : n ≤ bs.length) :
    add h b item n = some
      ({ bufs := h.bufs ++ [bs.take n],
         nodes := h.nodes ++ [{ item := h.bufs.length, nItem := n, next := b.head }] },
       { head := some h.nodes.length, current := b.current,
         size := wrapInt (b.size + 1) }) := by
  have hlt : item < h.bufs.length := by
    by_contra hc
    rw [List.getElem?_eq_none (by omega)] at hb
    cases hb
  have hne : ¬ h.bufs.length = item := by omega
  simp [add, emallocNode, emalloc, setNode, memcpy,
    set_length_append, List.getElem?_append_left hlt, hb, hn, hne]

theorem getElem?_lt {α : Type} {l : List α} {i : Nat} {x : α} (hx : l[i]? = some x) :
    i < l.length := by
  by_contra hc
  rw [List.getElem?_eq_none (by omega)] at hx
  cases hx

theorem memcpy_defined {h h1 : Heap} {dst src n : Nat}
    (hm : memcpy h dst src n = some h1) :
    dst ≠ src ∧ ∃ s, h.bufs[src]? = some s ∧ n ≤ s.length := by
  unfold memcpy at hm
  split at hm
  · rename_i d s hd hs
    split at hm
    · rename_i hc
      exact ⟨hc.1, s, hs, hc.2.2⟩
    · cases hm
  · cases hm

theorem add_defined {h h1 : Heap} {b b1 : bag} {item n : Nat}
    (hadd : add h b item n = some (h1, b1)) :
    ∃ bs, h.bufs[item]? = some bs ∧ n ≤ bs.length := by
  unfold add at hadd
  simp only at hadd
  split at hadd
  · cases hadd
  · rename_i h4 hm
    obtain ⟨hne, s, hs, hn⟩ := memcpy_defined hm
    have hbufs : (setNode (emalloc (emallocNode h).1 n).1 (emallocNode h).2
        (fun nd => { nd with item := (emalloc (emallocNode h).1 n).2 })).bufs
        = h.bufs ++ [List.replicate n 0] := by
      simp only [setNode, emalloc, emallocNode]
      split <;> rfl
    rw [hbufs] at hs
    have hlt := getElem?_lt hs
    simp only [emalloc, emallocNode] at hne
    have hlt2 : item < h.bufs.length := by
      simp at hlt
      omega
    rw [List.getElem?_append_left hlt2] at hs
    exact ⟨s, hs, hn⟩

theorem copyCurrent_eq {h : Heap} {b : bag} {a : Nat} {nd : node} {x : List Byte}
    (hc : b.current = some a) (hn : h.nodes[a]? = some nd)
    (hx : h.bufs[nd.item]? = some x) (hl : nd.nItem = x.length) :
    copyCurrent h b = some ((store h x).1, b, some h.bufs.length) := by
  have hlt := getElem?_lt hx
  have hne : ¬ h.bufs.length = nd.item := by omega
  simp [copyCurrent, hc, hn, emalloc, memcpy, store, set_length_append,
    List.getElem?_append_left hlt, hx, hl, hne]

theorem itens_true_eq {h : Heap} {b : bag} {a : Nat} {nd : node} {x : List Byte}
    (hs : b.size ≠ 0) (hh : b.head = some a) (hn : h.nodes[a]? = some nd)
    (hx : h.bufs[nd.item]? = some x) (hl : nd.nItem = x.length) :
    itens h b true
      = some ((store h x).1, { b with current := some a }, some h.bufs.length) := by
  have hcopy := @copyCurrent_eq h { b with current := some a } a nd x rfl hn hx hl
  simpa [itens, isEmpty, hs, hh] using hcopy

theorem extends_store (h : Heap) (x : List Byte) : Extends h (store h x).1 :=
  ⟨List.prefix_append _ _, List.prefix_refl _⟩

theorem Rep.ne_nil {h : Heap} {b : bag} {l : List (Nat × List Byte)} {pos : Option Nat}
    (hr : Rep h b l pos) (hs : b.size ≠ 0) : l ≠ [] := by
  rintro rfl
  exact hs (by simpa [wrapInt] using hr.count)

theorem itens_spec {h : Heap} {b : bag} {l : List (Nat × List Byte)} {pos : Option Nat}
    (hr : Rep h b l pos) (init : Bool) :
    ∃ h1 b1 r, itens h b init = some (h1, b1, r) ∧
      Rep h1 b1 l (absItens l b.size pos init).1 ∧
      readResult h1 r = some (absItens l b.size pos init).2 ∧
      b1.head = b.head ∧ b1.size = b.size ∧ h1.nodes = h.nodes ∧
      ((absItens l b.size pos init).2 = none → r = none ∧ h1 = h ∧ b1 = b) ∧
      (∀ x, (absItens l b.size pos init).2 = some x →
        r = some h.bufs.length ∧ h1.bufs = h.bufs ++ [x]) := by
  by_cases hs : b.size = 0
  · refine ⟨h, b, none, ?_, ?_, ?_, rfl, rfl, rfl, ?_, ?_⟩ <;>
      simp [itens, isEmpty, absItens, hs, readResult]
    simpa [hs] using hr
  have hne := hr.ne_nil hs
  cases init with
  | true =>
    obtain ⟨⟨a, x⟩, l1, rfl⟩ := List.exists_cons_of_ne_nil hne
    obtain ⟨hp, nd, h1, h2, h3, h4⟩ := hr.chain
    have hcopy := copyCurrent_eq (h := h) (b := { b with current := b.head })
      (by simpa using hp) h1 h3 h2
    refine ⟨(store h x).1, { b with current := b.head }, some h.bufs.length,
      by simpa [itens, isEmpty, hs] using hcopy, ?_, ?_, rfl, rfl, rfl, ?_, ?_⟩
    · have habs : (absItens ((a, x) :: l1) b.size pos true).1 = some 0 := by
        simp [absItens, hs]
      rw [habs]
      exact ⟨hr.chain.extend (extends_store h x), ⟨(a, x), by simp, by simpa using hp⟩,
        hr.count⟩
    · simp [absItens, hs, readResult, store]
    · simp [absItens, hs]
    · simp [absItens, hs, store]
  | false =>
    cases pos with
    | none =>
      have hcur : b.current = none := hr.cursor
      refine ⟨h, b, none, ?_, ?_, ?_, rfl, rfl, rfl, ?_, ?_⟩ <;>
        simp [itens, isEmpty, absItens, hs, readResult, hcur]
      simpa [hs] using hr
    | some k =>
      obtain ⟨ax, hk, hcur⟩ := hr.cursor
      obtain ⟨nd, h1, h2, h3, h4⟩ := hr.chain.get hk
      have hklt := getElem?_lt hk
      by_cases hlast : k + 1 < l.length
      · obtain ⟨ay, hy⟩ : ∃ ay, l[k + 1]? = some ay := ⟨l[k + 1], by simp [hlast]⟩
        obtain ⟨nd1, g1, g2, g3, g4⟩ := hr.chain.get hy
        have hnext : nd.next = some ay.1 := by
          have := h4.head_eq
          rw [this, List.head?_drop, hy]
          rfl
        have hcopy := copyCurrent_eq (h := h) (b := { b with current := some ay.1 })
          rfl g1 g3 g2
        refine ⟨(store h ay.2).1, { b with current := some ay.1 }, some h.bufs.length,
          by simpa [itens, isEmpty, hs, hcur, h1, hnext] using hcopy,
          ?_, ?_, rfl, rfl, rfl, ?_, ?_⟩
        · simp only [absItens, hs, hlast, if_true, if_false]
          exact ⟨hr.chain.extend (extends_store h _), ⟨ay, hy, rfl⟩, hr.count⟩
        · simp [absItens, hs, hlast, readResult, store, hy]
        · simp [absItens, hs, hlast, hy]
        · simp [absItens, hs, hlast, store, hy]
      · have hnext : nd.next = none := by
          have := h4.head_eq
          rw [this, List.head?_drop, List.getElem?_eq_none (by omega)]
          rfl
        refine ⟨h, b, none, ?_, ?_, ?_, rfl, rfl, rfl, ?_, ?_⟩ <;>
          simp [itens, isEmpty, absItens, hs, readResult, hcur, h1, hnext, hlast]
        simp only [absItens, hs, hlast, if_false] at *
        exact ⟨hr.chain, ⟨ax, hk, hcur⟩, hr.count⟩

theorem CursorAt.cons {l : List (Nat × List Byte)} {cur pos : Option Nat}
    (hc : CursorAt l cur pos) (ax : Nat × List Byte) :
    CursorAt (ax :: l) cur (pos.map (· + 1)) := by
  cases pos with
  | none => exact hc
  | some k =>
    obtain ⟨ay, hk, hcur⟩ := hc
    exact ⟨ay, by simpa using hk, hcur⟩

theorem add_spec {h : Heap} {b : bag} {l : List (Nat × List Byte)} {pos : Option Nat}
    (hr : Rep h b l pos) {item n : Nat} {bs : List Byte}
    (hb : h.bufs[item]? = some bs) (hn : n ≤ bs.length) :
    ∃ h1 b1, add h b item n = some (h1, b1) ∧
      Rep h1 b1 ((h.nodes.length, bs.take n) :: l) (pos.map (· + 1)) ∧
      Extends h h1 ∧ b1.current = b.current ∧ b1.size = wrapInt (b.size + 1) ∧
      b1.head = some h.nodes.length ∧
      h1.nodes = h.nodes ++ [{ item := h.bufs.length, nItem := n, next := b.head }] ∧
      h1.bufs = h.bufs ++ [bs.take n] := by
  refine ⟨_, _, add_eq h b item n bs hb hn, ?_, ?_, rfl, rfl, rfl, rfl, rfl⟩
  · have hext : Extends h
        { bufs := h.bufs ++ [bs.take n],
          nodes := h.nodes ++ [{ item := h.bufs.length, nItem := n, next := b.head }] } :=
      ⟨List.prefix_append _ _, List.prefix_append _ _⟩
    refine ⟨⟨rfl, { item := h.bufs.length, nItem := n, next := b.head }, ?_, ?_, ?_, ?_⟩,
      hr.cursor.cons _, ?_⟩
    · simp
    · simp [hn]
    · simp
    · exact hr.chain.extend hext
    · simp only [hr.count, List.length_cons, Nat.cast_add, Nat.cast_one]
      exact wrapInt_wrapInt_add _ _
  · exact ⟨List.prefix_append _ _, List.prefix_append _ _⟩

theorem addItem_spec {h : Heap} {b : bag} {l : List (Nat × List Byte)} {pos : Option Nat}
    (hr : Rep h b l pos) (x : List Byte) :
    ∃ h1 b1, addItem h b x = some (h1, b1) ∧
      Rep h1 b1 ((h.nodes.length, x) :: l) (pos.map (· + 1)) ∧
      Extends h h1 ∧ b1.current = b.current ∧ b1.size = wrapInt (b.size + 1) := by
  have hr1 : Rep (store h x).1 b l pos :=
    ⟨hr.chain.extend (extends_store h x), hr.cursor, hr.count⟩
  obtain ⟨h1, b1, e1, e2, e3, e4, e5, -, -, -⟩ :=
    @add_spec _ _ _ _ hr1 (store h x).2 x.length x (by simp [store]) (le_refl _)
  refine ⟨h1, b1, e1, ?_, (extends_store h x).trans e3, e4, e5⟩
  simpa [store] using e2

theorem addAll_spec : ∀ (xs : List (List Byte)) {h : Heap} {b : bag}
    {l : List (Nat × List Byte)} {pos : Option Nat}, Rep h b l pos →
    ∃ h1 b1 l1, addAll h b xs = some (h1, b1) ∧
      Rep h1 b1 (l1 ++ l) (pos.map (· + xs.length)) ∧ l1.map Prod.snd = xs.reverse ∧
      Extends h h1 ∧ b1.current = b.current ∧ b1.size = wrapInt (b.size + xs.length)
  | [], h, b, l, pos, hr => by
    refine ⟨h, b, [], rfl, ?_, rfl, Extends.refl h, rfl, ?_⟩
    · simpa using hr
    · have := hr.count
      simp only [List.length_nil, Nat.cast_zero, add_zero]
      rw [this]
      unfold wrapInt
      omega
  | x :: xs, h, b, l, pos, hr => by
    obtain ⟨h1, b1, e1, e2, e3, e4, e5⟩ := addItem_spec hr x
    obtain ⟨h2, b2, l2, f1, f2, f3, f4, f5, f6⟩ := addAll_spec xs e2
    refine ⟨h2, b2, l2 ++ [(h.nodes.length, x)], ?_, ?_, ?_, e3.trans f4, f5.trans e4, ?_⟩
    · simp [addAll, e1, f1]
    · have hpos : Option.map (· + (x :: xs).length) pos
          = Option.map (· + xs.length) (Option.map (· + 1) pos) := by
        cases pos
        · rfl
        · simp; omega
      rw [hpos]
      simpa using f2
    · simp [f3]
    · rw [f6, e5, wrapInt_wrapInt_add]
      congr 1
      simp only [List.length_cons, Nat.cast_add, Nat.cast_one]
      ring

theorem rep_newBag (h : Heap) : Rep h newBag [] none :=
  ⟨rfl, rfl, by simp [newBag, wrapInt]⟩

theorem rep_of_reachable {h : Heap} {b : bag} (hr : Reachable h b) :
    ∃ l pos, Rep h b l pos := by
  induction hr with
  | newBag h => exact ⟨[], none, rep_newBag h⟩
  | @add h h1 b b1 item n _ hadd ih =>
    obtain ⟨l, pos, hrep⟩ := ih
    obtain ⟨bs, hb, hn⟩ := add_defined hadd
    obtain ⟨h2, b2, e1, e2, -⟩ := add_spec hrep hb hn
    rw [hadd] at e1
    cases e1
    exact ⟨_, _, e2⟩
  | @itens h h1 b b1 r init _ hit ih =>
    obtain ⟨l, pos, hrep⟩ := ih
    obtain ⟨h2, b2, r2, e1, e2, -⟩ := itens_spec hrep init
    rw [hit] at e1
    cases e1
    exact ⟨_, _, e2⟩
  | @store h b x _ ih =>
    obtain ⟨l, pos, hrep⟩ := ih
    exact ⟨l, pos, hrep.chain.extend (extends_store h x), hrep.cursor, hrep.count⟩
  | @write h b p w _ hp ih =>
    obtain ⟨l, pos, hrep⟩ := ih
    refine ⟨l, pos, @Chain.mono h (write h p w) (fun _ _ hx => hx) ?_ _ _
      hrep.chain, hrep.cursor, hrep.count⟩
    intro a nd x hnd hx
    have hmem : nd ∈ h.nodes := List.getElem?_mem hnd
    have hne := hp nd hmem
    simp only [write]
    rw [List.getElem?_set_ne (Ne.symm hne)]
    exact hx

theorem calls_spec : ∀ (is : List Bool) {h : Heap} {b : bag} {l : List (Nat × List Byte)}
    {pos : Option Nat}, Rep h b l pos →
    ∃ h1 b1, calls h b is = some ((absCalls l b.size pos is).1, h1, b1) ∧
      Rep h1 b1 l (absCalls l b.size pos is).2 ∧
      b1.head = b.head ∧ b1.size = b.size ∧ h1.nodes = h.nodes ∧ h.bufs <+: h1.bufs
  | [], h, b, l, pos, hr => ⟨h, b, rfl, hr, rfl, rfl, rfl, List.prefix_refl _⟩
  | i :: is, h, b, l, pos, hr => by
    obtain ⟨h1, b1, r, e1, e2, e3, e4, e5, e6, e7, e8⟩ := itens_spec hr i
    obtain ⟨h2, b2, f1, f2, f3, f4, f5, f6⟩ := calls_spec is e2
    rw [e5] at f1 f2
    refine ⟨h2, b2, ?_, f2, f3.trans e4, f4.trans e5, f5.trans e6, ?_⟩
    · simp [calls, e1, e3, f1, absCalls]
    · refine List.IsPrefix.trans ?_ f6
      cases hres : (absItens l b.size pos i).2 with
      | none => rw [(e7 hres).2.1]
      | some x => rw [(e8 x hres).2]; exact List.prefix_append _ _

/-! ## Sequences of `itens` calls read on the chain -/

theorem absCalls_cons (l : List (Nat × List Byte)) (sz : Int) (pos : Option Nat)
    (i : Bool) (is : List Bool) :
    absCalls l sz pos (i :: is)
      = ((absItens l sz pos i).2 :: (absCalls l sz (absItens l sz pos i).1 is).1,
         (absCalls l sz (absItens l sz pos i).1 is).2) := rfl

theorem absCalls_advance (l : List (Nat × List Byte)) (sz : Int) (hs : sz ≠ 0) :
    ∀ (m k : Nat), k + (m + 1) = l.length →
      absCalls l sz (some k) (List.replicate (m + 1) false)
        = ((l.drop (k + 1)).map (fun ax => some ax.2) ++ [none], some (l.length - 1))
  | 0, k, hk => by
    have h1 : ¬ (k + 1 < l.length) := by omega
    have h2 : l.drop (k + 1) = [] := List.drop_eq_nil_of_le (by omega)
    have h3 : l.length - 1 = k := by omega
    simp [absCalls, absItens, hs, h1, h2, h3]
  | m + 1, k, hk => by
    have h1 : k + 1 < l.length := by omega
    have ih := absCalls_advance l sz hs m (k + 1) (by omega)
    have h2 : l.drop (k + 1) = l[k + 1] :: l.drop (k + 1 + 1) := by
      simp
    have h3 : absItens l sz (some k) false = (some (k + 1), some (l[k + 1]).2) := by
      simp [absItens, hs, h1]
    rw [List.replicate_succ, absCalls_cons, h3]
    simp only []
    rw [ih, h2]
    rfl

theorem absCalls_traversal (l : List (Nat × List Byte)) (sz : Int) (hs : sz ≠ 0)
    (hl : l ≠ []) (pos : Option Nat) :
    absCalls l sz pos (true :: List.replicate l.length false)
      = (l.map (fun ax => some ax.2) ++ [none], some (l.length - 1)) := by
  obtain ⟨ax, l1, rfl⟩ := List.exists_cons_of_ne_nil hl
  have h3 : absItens (ax :: l1) sz pos true = (some 0, some ax.2) := by
    simp [absItens, hs]
  have ih := absCalls_advance (ax :: l1) sz hs l1.length 0 (by simp)
  rw [absCalls_cons, h3]
  simp only [List.length_cons]
  rw [ih]
  simp

theorem calls_of_size_zero (is : List Bool) (h : Heap) (b : bag) (hs : b.size = 0) :
    calls h b is = some (List.replicate is.length none, h, b) := by
  induction is with
  | nil => rfl
  | cons i is ih => simp [calls, itens, isEmpty, hs, readResult, ih, List.replicate_succ]

theorem traversal_calls {h : Heap} {b : bag} {l : List (Nat × List Byte)} {pos : Option Nat}
    (hr : Rep h b l pos) (hs : b.size ≠ 0) :
    ∃ h1 b1, calls h b (true :: List.replicate l.length false)
        = some (l.map (fun ax => some ax.2) ++ [none], h1, b1) ∧
      Rep h1 b1 l (some (l.length - 1)) := by
  obtain ⟨h1, b1, e1, e2, -⟩ := calls_spec (true :: List.replicate l.length false) hr
  rw [absCalls_traversal l b.size hs (hr.ne_nil hs) pos] at e1 e2
  exact ⟨h1, b1, e1, e2⟩

theorem addAll_newBag (h0 : Heap) (xs : List (List Byte)) :
    ∃ h b l, addAll h0 newBag xs = some (h, b) ∧ Rep h b l none ∧
      l.map Prod.snd = xs.reverse ∧ b.size = wrapInt xs.length := by
  obtain ⟨h, b, l, e1, e2, e3, -, -, e6⟩ := addAll_spec xs (rep_newBag h0)
  refine ⟨h, b, l, e1, by simpa using e2, e3, ?_⟩
  simpa [newBag] using e6

theorem run_spec : ∀ (ops : List Op) {h : Heap} {b : bag} {l : List (Nat × List Byte)}
    {pos : Option Nat}, Rep h b l pos →
    ∃ h1 b1 l1 pos1, run h b ops = some (h1, b1) ∧ Rep h1 b1 l1 pos1 ∧
      b1.size = wrapInt (b.size + numAdds ops)
  | [], h, b, l, pos, hr => by
    refine ⟨h, b, l, pos, rfl, hr, ?_⟩
    rw [hr.count]
    simp only [numAdds, Nat.cast_zero, add_zero]
    unfold wrapInt
    omega
  | Op.add x :: ops, h, b, l, pos, hr => by
    obtain ⟨h1, b1, e1, e2, -, -, e5⟩ := addItem_spec hr x
    obtain ⟨h2, b2, l2, pos2, f1, f2, f3⟩ := run_spec ops e2
    refine ⟨h2, b2, l2, pos2, by simp [run, step, e1, f1], f2, ?_⟩
    rw [f3, e5, wrapInt_wrapInt_add]
    congr 1
    simp only [numAdds, Nat.cast_add, Nat.cast_one]
    ring
  | Op.itens i :: ops, h, b, l, pos, hr => by
    obtain ⟨h1, b1, r, e1, e2, -, -, e5, -⟩ := itens_spec hr i
    obtain ⟨h2, b2, l2, pos2, f1, f2, f3⟩ := run_spec ops e2
    refine ⟨h2, b2, l2, pos2, by simp [run, step, e1, f1], f2, ?_⟩
    rw [f3, e5]
    rfl

theorem numAdds_replicate_add (n : Nat) (x : List Byte) :
    numAdds (List.replicate n (Op.add x)) = n := by
  induction n with
  | zero => rfl
  | succ n ih => rw [List.replicate_succ, numAdds, ih]

theorem advance_spec : ∀ (fuel : Nat) {h : Heap} {b : bag} {l : List (Nat × List Byte)}
    {k : Nat}, Rep h b l (some k) → b.size ≠ 0 → l.length - k ≤ fuel →
    ∃ h1 b1, advance fuel h b = some ((l.drop (k + 1)).map Prod.snd, h1, b1) ∧
      Rep h1 b1 l (some (l.length - 1)) ∧ b1.size = b.size
  | 0, h, b, l, k, hr, _, hf => by
    obtain ⟨ax, hk, -⟩ := hr.cursor
    have := getElem?_lt hk
    omega
  | fuel + 1, h, b, l, k, hr, hs, hf => by
    obtain ⟨ax, hk, -⟩ := hr.cursor
    have hklt := getElem?_lt hk
    obtain ⟨h1, b1, r, e1, e2, e3, e4, e5, e6, e7, e8⟩ := itens_spec hr false
    by_cases hlast : k + 1 < l.length
    · have habs : absItens l b.size (some k) false = (some (k + 1), some (l[k + 1]).2) := by
        simp [absItens, hs, hlast]
      rw [habs] at e2 e7 e8
      obtain ⟨rfl, hb1⟩ := e8 _ rfl
      obtain ⟨h2, b2, f1, f2, f3⟩ :=
        advance_spec fuel e2 (by rw [e5]; exact hs) (by omega)
      refine ⟨h2, b2, ?_, f2, f3.trans e5⟩
      have hd : l.drop (k + 1) = l[k + 1] :: l.drop (k + 1 + 1) := by simp
      have hd1 : (l.drop (k + 1)).map Prod.snd
          = (l[k + 1]).2 :: (l.drop (k + 1 + 1)).map Prod.snd := by
        rw [hd]
        rfl
      rw [hd1]
      simp [advance, e1, hb1, f1]
    · have habs : absItens l b.size (some k) false = (some k, none) := by
        simp [absItens, hs, hlast]
      rw [habs] at e2 e7
      obtain ⟨rfl, rfl, rfl⟩ := e7 rfl
      have hd : l.drop (k + 1) = [] := List.drop_eq_nil_of_le (by omega)
      have hk1 : l.length - 1 = k := by omega
      rw [hd, hk1]
      exact ⟨h1, b1, by simp [advance, e1], e2, rfl⟩

theorem traversal_spec {h : Heap} {b : bag} {l : List (Nat × List Byte)} {pos : Option Nat}
    (hr : Rep h b l pos) {fuel : Nat} (hf : l.length ≤ fuel) :
    ∃ h1 b1 pos1, traversal fuel h b
        = some (if b.size = 0 then [] else l.map Prod.snd, h1, b1) ∧
      Rep h1 b1 l pos1 ∧ b1.size = b.size := by
  by_cases hs : b.size = 0
  · exact ⟨h, b, pos, by simp [traversal, itens, isEmpty, hs], hr, rfl⟩
  · obtain ⟨⟨a, x⟩, l1, rfl⟩ := List.exists_cons_of_ne_nil (hr.ne_nil hs)
    obtain ⟨h1, b1, r, e1, e2, e3, e4, e5, e6, e7, e8⟩ := itens_spec hr true
    have habs : absItens ((a, x) :: l1) b.size pos true = (some 0, some x) := by
      simp [absItens, hs]
    rw [habs] at e2 e8
    obtain ⟨rfl, hb1⟩ := e8 _ rfl
    obtain ⟨h2, b2, f1, f2, f3⟩ :=
      advance_spec fuel e2 (by rw [e5]; exact hs) (by simp at hf ⊢; omega)
    refine ⟨h2, b2, _, ?_, f2, f3.trans e5⟩
    simp at f1
    simp [traversal, e1, hb1, f1, hs]

theorem reachable_of_run : ∀ (ops : List Op) {h h1 : Heap} {b b1 : bag},
    Reachable h b → run h b ops = some (h1, b1) → Reachable h1 b1
  | [], h, h1, b, b1, hr, e => by
    simp only [run, Option.some.injEq, Prod.mk.injEq] at e
    obtain ⟨rfl, rfl⟩ := e
    exact hr
  | Op.add x :: ops, h, h1, b, b1, hr, e => by
    cases hstep : addItem h b x with
    | none => simp [run, step, hstep] at e
    | some s =>
      obtain ⟨h2, b2⟩ := s
      have e2 : run h2 b2 ops = some (h1, b1) := by simpa [run, step, hstep] using e
      exact reachable_of_run ops (Reachable.add _ _ (Reachable.store x hr) hstep) e2
  | Op.itens i :: ops, h, h1, b, b1, hr, e => by
    cases hstep : itens h b i with
    | none => simp [run, step, hstep] at e
    | some s =>
      obtain ⟨h2, b2, r⟩ := s
      have e2 : run h2 b2 ops = some (h1, b1) := by simpa [run, step, hstep] using e
      exact reachable_of_run ops (Reachable.itens i hr hstep) e2

theorem copyCurrent_some {h h1 : Heap} {b b1 : bag} {r : Option Nat}
    (hc : copyCurrent h b = some (h1, b1, r)) : ∃ p, r = some p := by
  unfold copyCurrent at hc
  split at hc
  · cases hc
  · split at hc
    · cases hc
    · simp only at hc
      split at hc
      · cases hc
      · simp only [Option.some.injEq, Prod.mk.injEq] at hc
        exact ⟨_, hc.2.2.symm⟩

theorem absItens_mem {l : List (Nat × List Byte)} {sz : Int} {pos : Option Nat}
    {init : Bool} {x : List Byte} (hx : (absItens l sz pos init).2 = some x) :
    ∃ ax, ax ∈ l ∧ ax.2 = x := by
  have key : ∀ j : Nat, (l[j]?).map Prod.snd = some x → ∃ ax, ax ∈ l ∧ ax.2 = x := by
    intro j hj
    cases hlj : l[j]? with
    | none => simp [hlj] at hj
    | some ax => exact ⟨ax, List.getElem?_mem hlj, by simpa [hlj] using hj⟩
  unfold absItens at hx
  split at hx
  · cases hx
  · split at hx
    · exact key 0 hx
    · split at hx
      · cases hx
      · split at hx
        · exact key _ hx
        · cases hx

theorem itens_none_unchanged {h h1 : Heap} {b b1 : bag} {init : Bool}
    (e : itens h b init = some (h1, b1, none)) : h1 = h ∧ b1 = b := by
  unfold itens at e
  split at e
  · simp only [Option.some.injEq, Prod.mk.injEq] at e
    exact ⟨e.1.symm, e.2.1.symm⟩
  · split at e
    · obtain ⟨p, hp⟩ := copyCurrent_some e
      cases hp
    · split at e
      · simp only [Option.some.injEq, Prod.mk.injEq] at e
        exact ⟨e.1.symm, e.2.1.symm⟩
      · split at e
        · cases e
        · split at e
          · simp only [Option.some.injEq, Prod.mk.injEq] at e
            exact ⟨e.1.symm, e.2.1.symm⟩
          · obtain ⟨p, hp⟩ := copyCurrent_some e
            cases hp

theorem addItem_eq (h : Heap) (b : bag) (x : List Byte) :
    addItem h b x = some
      ({ bufs := h.bufs ++ [x] ++ [x],
         nodes := h.nodes ++ [{ item := h.bufs.length + 1, nItem := x.length,
                                next := b.head }] },
       { head := some h.nodes.length, current := b.current,
         size := wrapInt (b.size + 1) }) := by
  have := add_eq (store h x).1 b (store h x).2 x.length x (by simp [store]) (le_refl _)
  simpa [addItem, store] using this

theorem addAll_cursor : ∀ (xs : List (List Byte)) (h : Heap) (b : bag) (cur : Option Nat),
    addAll h { b with current := cur } xs
      = (addAll h b xs).map (fun s => (s.1, { s.2 with current := cur }))
  | [], h, b, cur => rfl
  | x :: xs, h, b, cur => by
    simp only [addAll, addItem_eq]
    exact addAll_cursor xs _
      { head := some h.nodes.length, current := b.current, size := wrapInt (b.size + 1) } cur

theorem reset_on_wrapped_count (xs : List (List Byte))
    (hx : wrapInt (2 + (xs.length : Int)) = 0) :
    ((run emptyHeap newBag [Op.add [], Op.add [], Op.itens true, Op.itens true]).bind
        (fun s => addAll s.1 s.2 xs)).map (fun s => (s.1, s.2.head, s.2.size))
      = ((run emptyHeap newBag [Op.add [], Op.add [], Op.itens true, Op.itens false]).bind
        (fun s => addAll s.1 s.2 xs)).map (fun s => (s.1, s.2.head, s.2.size)) ∧
    ((run emptyHeap newBag [Op.add [], Op.add [], Op.itens true, Op.itens true]).bind
        (fun s => addAll s.1 s.2 xs)).bind
        (fun s => (itens s.1 s.2 true).map (fun t => (t.2.1.current, t.2.2)))
      = some (some 1, none) ∧
    ((run emptyHeap newBag [Op.add [], Op.add [], Op.itens true, Op.itens false]).bind
        (fun s => addAll s.1 s.2 xs)).bind
        (fun s => (itens s.1 s.2 true).map (fun t => (t.2.1.current, t.2.2)))
      = some (some 0, none) := by
  have pA : run emptyHeap newBag [Op.add [], Op.add [], Op.itens true, Op.itens true]
      = some ({ bufs := [[], [], [], [], [], []],
                nodes := [{ item := 1, nItem := 0, next := none },
                          { item := 3, nItem := 0, next := some 0 }] },
              { head := some 1, current := some 1, size := 2 }) := rfl
  have pB : run emptyHeap newBag [Op.add [], Op.add [], Op.itens true, Op.itens false]
      = some ({ bufs := [[], [], [], [], [], []],
                nodes := [{ item := 1, nItem := 0, next := none },
                          { item := 3, nItem := 0, next := some 0 }] },
              { head := some 1, current := some 0, size := 2 }) := rfl
  obtain ⟨l, pos, hrep⟩ := rep_of_reachable
    (reachable_of_run _ (Reachable.newBag emptyHeap) pA)
  obtain ⟨h1, b1, l1, e1, -, -, -, e5, e6⟩ := addAll_spec xs hrep
  have hs : b1.size = 0 := by rw [e6]; exact hx
  have eB := addAll_cursor xs
    { bufs := [[], [], [], [], [], []],
      nodes := [{ item := 1, nItem := 0, next := none },
                { item := 3, nItem := 0, next := some 0 }] }
    { head := some 1, current := some 1, size := 2 } (some 0)
  rw [e1] at eB
  rw [pA, pB]
  simp only [Option.bind]
  rw [e1, eB]
  refine ⟨rfl, ?_, ?_⟩
  · simp only [Option.map, itens, isEmpty, hs, beq_self_eq_true, if_true, e5]
  · simp only [Option.map, itens, isEmpty, hs, beq_self_eq_true, if_true]

theorem numAdds_eq_length_added (ops : List Op) : numAdds ops = (added ops).length := by
  induction ops with
  | nil => rfl
  | cons o os ih => cases o <;> simp [numAdds, added, ih]

theorem run_chain : ∀ (ops : List Op) {h : Heap} {b : bag} {l : List (Nat × List Byte)}
    {pos : Option Nat}, Rep h b l pos →
    ∃ h1 b1 l1 pos1, run h b ops = some (h1, b1) ∧ Rep h1 b1 (l1 ++ l) pos1 ∧
      l1.map Prod.snd = (added ops).reverse
  | [], h, b, l, pos, hr => ⟨h, b, [], pos, rfl, by simpa using hr, rfl⟩
  | Op.add x :: ops, h, b, l, pos, hr => by
    obtain ⟨h1, b1, e1, e2, -⟩ := addItem_spec hr x
    obtain ⟨h2, b2, l2, pos2, f1, f2, f3⟩ := run_chain ops e2
    refine ⟨h2, b2, l2 ++ [(h.nodes.length, x)], pos2, by simp [run, step, e1, f1],
      by simpa using f2, by simp [added, f3]⟩
  | Op.itens i :: ops, h, b, l, pos, hr => by
    obtain ⟨h1, b1, r, e1, e2, -⟩ := itens_spec hr i
    obtain ⟨h2, b2, l2, pos2, f1, f2, f3⟩ := run_chain ops e2
    exact ⟨h2, b2, l2, pos2, by simp [run, step, e1, f1], f2, by simpa [added] using f3⟩

theorem run_newBag (h0 : Heap) (ops : List Op) :
    ∃ h b l pos, run h0 newBag ops = some (h, b) ∧ Rep h b l pos ∧
      l.map Prod.snd = (added ops).reverse ∧ l.length = numAdds ops ∧
      b.size = wrapInt (numAdds ops) := by
  obtain ⟨h, b, l, pos, e1, e2, e3⟩ := run_chain ops (rep_newBag h0)
  have hl : l.length = numAdds ops := by
    have := congrArg List.length e3
    rw [numAdds_eq_length_added]
    simpa using this
  refine ⟨h, b, l, pos, e1, by simpa using e2, e3, hl, ?_⟩
  have := e2.count
  rw [this]
  simp [hl]

theorem addAll_newBag_chain (h0 : Heap) (xs : List (List Byte)) :
    ∃ h b l, addAll h0 newBag xs = some (h, b) ∧ Rep h b l none ∧
      l.length = xs.length ∧ b.size = wrapInt xs.length := by
  obtain ⟨h, b, l, e1, e2, e3, e4⟩ := addAll_newBag h0 xs
  have hl : l.length = xs.length := by
    have := congrArg List.length e3
    simpa using this
  exact ⟨h, b, l, e1, e2, hl, e4⟩

theorem copyCurrent_inv {h h1 : Heap} {b b1 : bag} {r : Option Nat}
    (hc : copyCurrent h b = some (h1, b1, r)) :
    b1 = b ∧ ∃ a nd x, b.current = some a ∧ h.nodes[a]? = some nd ∧
      h.bufs[nd.item]? = some x ∧ nd.nItem ≤ x.length := by
  unfold copyCurrent at hc
  split at hc
  · cases hc
  · rename_i a ha
    split at hc
    · cases hc
    · rename_i nd hnd
      simp only at hc
      split at hc
      · cases hc
      · rename_i h2 hm
        simp only [Option.some.injEq, Prod.mk.injEq] at hc
        obtain ⟨hne, s, hs, hn⟩ := memcpy_defined hm
        simp only [emalloc] at hne hs
        have hlt := getElem?_lt hs
        have hlt2 : nd.item < h.bufs.length := by
          simp at hlt
          omega
        rw [List.getElem?_append_left hlt2] at hs
        exact ⟨hc.2.1.symm, a, nd, s, ha, hnd, hs, hn⟩

theorem absItens_cons_false (ax : Nat × List Byte) (l : List (Nat × List Byte))
    {sz sz1 : Int} (hs : sz ≠ 0) (hs1 : sz1 ≠ 0) (pos : Option Nat) :
    absItens (ax :: l) sz1 (pos.map (· + 1)) false
      = ((absItens l sz pos false).1.map (· + 1), (absItens l sz pos false).2) := by
  cases pos with
  | none => simp [absItens, hs, hs1]
  | some k =>
    by_cases hlast : k + 1 < l.length
    · simp [absItens, hs, hs1, hlast]
    · simp [absItens, hs, hs1, hlast]

theorem absCalls_cons_false (ax : Nat × List Byte) (l : List (Nat × List Byte))
    {sz sz1 : Int} (hs : sz ≠ 0) (hs1 : sz1 ≠ 0) :
    ∀ (j : Nat) (pos : Option Nat),
      (absCalls (ax :: l) sz1 (pos.map (· + 1)) (List.replicate j false)).1
        = (absCalls l sz pos (List.replicate j false)).1
  | 0, _ => rfl
  | j + 1, pos => by
    rw [List.replicate_succ, absCalls_cons, absCalls_cons, absItens_cons_false ax l hs hs1]
    simp only []
    rw [absCalls_cons_false ax l hs hs1 j]

theorem advance_after_count_minus_one (xs : List (List Byte))
    (hx : wrapInt (2 + (xs.length : Int)) = -1) :
    ((run emptyHeap newBag [Op.add [5], Op.add [6], Op.itens true]).bind
        (fun s => (addAll s.1 s.2 xs).bind
          (fun t => calls t.1 t.2 [false]))).map (fun u => u.1) = some [some [5]] ∧
    ((run emptyHeap newBag [Op.add [5], Op.add [6], Op.itens true]).bind
        (fun s => (addAll s.1 s.2 xs).bind
          (fun t => (add (store t.1 [7]).1 t.2 (store t.1 [7]).2 1).bind
            (fun v => calls v.1 v.2 [false])))).map (fun u => u.1) = some [none] := by
  have pA : run emptyHeap newBag [Op.add [5], Op.add [6], Op.itens true]
      = some ({ bufs := [[5], [5], [6], [6], [6]],
                nodes := [{ item := 1, nItem := 1, next := none },
                          { item := 3, nItem := 1, next := some 0 }] },
              { head := some 1, current := some 1, size := 2 }) := rfl
  have hrep : Rep { bufs := [[5], [5], [6], [6], [6]],
                    nodes := [{ item := 1, nItem := 1, next := none },
                              { item := 3, nItem := 1, next := some 0 }] }
      { head := some 1, current := some 1, size := 2 } [(1, [6]), (0, [5])] (some 0) :=
    ⟨by simp [Chain], ⟨(1, [6]), rfl, rfl⟩, by decide⟩
  obtain ⟨h1, b1, l1, e1, e2, e3, -, -, e6⟩ := addAll_spec xs hrep
  have hl1 : l1.length = xs.length := by
    have := congrArg List.length e3
    simpa using this
  have hs : b1.size = -1 := by rw [e6]; exact hx
  have hne : b1.size ≠ 0 := by rw [hs]; decide
  obtain ⟨h2, b2, f1, -⟩ := calls_spec [false] e2
  obtain ⟨h3, b3, g1, -, -, -, g5⟩ := addItem_spec e2 [7]
  have g1' : add (store h1 [7]).1 b1 (store h1 [7]).2 1 = some (h3, b3) := g1
  have hs3 : b3.size = 0 := by rw [g5, hs]; decide
  rw [pA]
  simp only [Option.bind]
  rw [e1]
  simp only [g1']
  rw [f1, calls_of_size_zero _ h3 b3 hs3]
  refine ⟨?_, rfl⟩
  have hpos : (0 + xs.length) + 1 < (l1 ++ [(1, [6]), (0, [5])]).length := by
    simp [hl1]
  have hget : (l1 ++ [((1 : Nat), ([6] : List Byte)), (0, [5])])[0 + xs.length + 1]?
      = some (0, [5]) := by
    rw [List.getElem?_append_right (by omega)]
    have : 0 + xs.length + 1 - l1.length = 1 := by omega
    rw [this]
    rfl
  simp only [Option.map, absCalls, absItens, hne, if_false, hpos, if_true, hget]
  rfl

/-! ## Release of a bag -/

theorem Cells.of_prefix {h h1 : Heap} (hn : h.nodes <+: h1.nodes) :
    ∀ {cs : List (Nat × node)} {p : Option Nat}, Cells h p cs → Cells h1 p cs
  | [], _, hc => hc
  | (_, _) :: _, _, ⟨hp, hnd, hrest⟩ =>
    ⟨hp, prefix_getElem? hn hnd, Cells.of_prefix hn hrest⟩

theorem Cells.length_eq {h : Heap} : ∀ {cs : List (Nat × node)}
    {l : List (Nat × List Byte)} {p : Option Nat}, Cells h p cs → Chain h p l →
    l.length = cs.length
  | [], [], _, _, _ => rfl
  | [], (a, x) :: l, p, hc, hl => by
    have h1 : p = none := hc
    have h2 : p = some a := hl.1
    rw [h1] at h2
    cases h2
  | (a, nd) :: cs, [], p, hc, hl => by
    have h1 : p = none := hl
    have h2 : p = some a := hc.1
    rw [h1] at h2
    cases h2
  | (a, nd) :: cs, (a1, x) :: l, p, hc, hl => by
    obtain ⟨hp, hnd, hrest⟩ := hc
    obtain ⟨hp1, nd1, g1, -, -, g4⟩ := hl
    rw [hp] at hp1
    cases hp1
    rw [hnd] at g1
    cases g1
    simp [Cells.length_eq hrest g4]

theorem itens_frame {h h1 : Heap} {b b1 : bag} {r : Option Nat} {init : Bool}
    (hr : Reachable h b) (e : itens h b init = some (h1, b1, r)) :
    b1.head = b.head ∧ h1.nodes = h.nodes ∧ h.bufs <+: h1.bufs := by
  obtain ⟨l, pos, hrep⟩ := rep_of_reachable hr
  obtain ⟨h2, b2, r2, e1, -, -, e4, -, e6, e7, e8⟩ := itens_spec hrep init
  rw [e] at e1
  cases e1
  refine ⟨e4, e6, ?_⟩
  cases hres : (absItens l b.size pos init).2 with
  | none => rw [(e7 hres).2.1]
  | some x => rw [(e8 x hres).2]; exact List.prefix_append _ _

theorem owns_of_reachable {h : Heap} {b : bag} (hr : Reachable h b) :
    ∃ cs, Owns h b cs := by
  induction hr with
  | newBag h => exact ⟨[], rfl, by simp, by simp, by simp⟩
  | @add h h1 b b1 item n _ hadd ih =>
    obtain ⟨cs, hown⟩ := ih
    obtain ⟨bs, hb, hn⟩ := add_defined hadd
    rw [add_eq h b item n bs hb hn] at hadd
    simp only [Option.some.injEq, Prod.mk.injEq] at hadd
    obtain ⟨rfl, rfl⟩ := hadd
    refine ⟨(h.nodes.length, { item := h.bufs.length, nItem := n, next := b.head }) :: cs,
      ⟨rfl, by simp, Cells.of_prefix (List.prefix_append _ _) hown.cells⟩, ?_, ?_, ?_⟩
    · simp only [List.map_cons, List.nodup_cons, List.mem_map, not_exists, not_and]
      refine ⟨fun c hc hcontra => ?_, hown.addrs⟩
      have := (hown.valid c hc).1
      omega
    · simp only [List.map_cons, List.nodup_cons, List.mem_map, not_exists, not_and]
      refine ⟨fun c hc hcontra => ?_, hown.items⟩
      have := (hown.valid c hc).2
      omega
    · intro c hc
      simp only [List.mem_cons] at hc
      rcases hc with rfl | hc
      · simp
      · have := hown.valid c hc
        simp only [List.length_append, List.length_singleton]
        omega
  | @itens h h1 b b1 r init hreach hit ih =>
    obtain ⟨cs, hown⟩ := ih
    obtain ⟨e1, e2, e3⟩ := itens_frame hreach hit
    refine ⟨cs, ?_, hown.addrs, hown.items, fun c hc => ?_⟩
    · rw [e1]
      exact Cells.of_prefix (by rw [e2]) hown.cells
    · have := hown.valid c hc
      have hle := e3.length_le
      rw [e2]
      omega
  | @store h b x _ ih =>
    obtain ⟨cs, hown⟩ := ih
    refine ⟨cs, @Cells.of_prefix h (BagC.store h x).1 (List.prefix_refl _) _ _ hown.cells,
      hown.addrs, hown.items, fun c hc => ?_⟩
    have := hown.valid c hc
    simp only [BagC.store, List.length_append, List.length_singleton]
    omega
  | @write h b p w _ _ ih =>
    obtain ⟨cs, hown⟩ := ih
    refine ⟨cs, @Cells.of_prefix h (BagC.write h p w) (List.prefix_refl _) _ _ hown.cells,
      hown.addrs, hown.items, fun c hc => ?_⟩
    have := hown.valid c hc
    simp only [BagC.write, List.length_set]
    exact this

theorem mem_released {x : Freed} : ∀ {cs : List (Nat × node)},
    x ∈ released cs ↔ ∃ c, c ∈ cs ∧ (x = Freed.item c.2.item ∨ x = Freed.cell c.1)
  | [] => by simp [released]
  | c :: cs => by
    simp only [released, List.mem_append, List.mem_cons, List.mem_singleton,
      List.not_mem_nil, or_false, @mem_released x cs]
    constructor
    · rintro (⟨d, hd, hx⟩ | hx)
      · exact ⟨d, Or.inr hd, hx⟩
      · exact ⟨c, Or.inl rfl, hx⟩
    · rintro ⟨d, rfl | hd, hx⟩
      · exact Or.inr hx
      · exact Or.inl ⟨d, hd, hx⟩

theorem released_length : ∀ (cs : List (Nat × node)), (released cs).length = 2 * cs.length
  | [] => rfl
  | c :: cs => by
    simp only [released, List.length_append, released_length cs, List.length_cons,
      List.length_nil]
    omega

theorem cell_not_mem_released {a : Nat} {cs : List (Nat × node)}
    (ha : a ∉ cs.map Prod.fst) : Freed.cell a ∉ released cs := by
  rw [mem_released]
  rintro ⟨c, hc, hx | hx⟩
  · cases hx
  · cases hx
    exact ha (List.mem_map_of_mem Prod.fst hc)

theorem item_not_mem_released {i : Nat} {cs : List (Nat × node)}
    (hi : i ∉ cs.map (fun c => c.2.item)) : Freed.item i ∉ released cs := by
  rw [mem_released]
  rintro ⟨c, hc, hx | hx⟩
  · cases hx
    exact hi (List.mem_map_of_mem (fun c => c.2.item) hc)
  · cases hx

theorem released_nodup : ∀ {cs : List (Nat × node)}, (cs.map Prod.fst).Nodup →
    (cs.map (fun c => c.2.item)).Nodup → (released cs).Nodup
  | [], _, _ => by simp [released]
  | c :: cs, ha, hi => by
    simp only [List.map_cons, List.nodup_cons] at ha hi
    have ih := released_nodup ha.2 hi.2
    have h1 := cell_not_mem_released ha.1
    have h2 := item_not_mem_released hi.1
    simp only [released]
    rw [List.nodup_append]
    refine ⟨ih, by simp, ?_⟩
    intro x hx hx2
    simp only [List.mem_cons, List.mem_singleton, List.not_mem_nil, or_false] at hx2
    rcases hx2 with rfl | rfl
    · exact h2 hx
    · exact h1 hx

theorem freeNode_null (h : Heap) (fuel : Nat) (t : List Freed) :
    freeNode h fuel t none = some (t, 1) := by
  cases fuel <;> rfl

theorem freeNode_spec {h : Heap} : ∀ (cs : List (Nat × node)) (fuel : Nat)
    (t0 : List Freed) (p : Option Nat), Cells h p cs → (cs.map Prod.fst).Nodup →
    (cs.map (fun c => c.2.item)).Nodup → (∀ c ∈ cs, c.2.item < h.bufs.length) →
    (∀ x ∈ released cs, x ∉ t0) → cs.length ≤ fuel →
    freeNode h fuel t0 p = some (t0 ++ released cs, cs.length + 1)
  | [], fuel, t0, p, hc, _, _, _, _, _ => by
    have hp : p = none := hc
    rw [hp, freeNode_null]
    simp [released]
  | (a, nd) :: cs, 0, _, _, _, _, _, _, _, hf => by simp at hf
  | (a, nd) :: cs, fuel + 1, t0, p, hc, ha, hi, hv, ht, hf => by
    obtain ⟨hp, hnd, hrest⟩ := hc
    simp only [List.map_cons, List.nodup_cons] at ha hi
    have ih := freeNode_spec cs fuel t0 nd.next hrest ha.2 hi.2
      (fun c hc => hv c (List.mem_cons_of_mem _ hc))
      (fun x hx => ht x (by simp only [released, List.mem_append]; exact Or.inl hx))
      (by simpa using hf)
    have hcell0 : Freed.cell a ∉ t0 := ht _ (by simp [released])
    have hitem0 : Freed.item nd.item ∉ t0 := ht _ (by simp [released])
    have hcell1 : Freed.cell a ∉ t0 ++ released cs := by
      simp only [List.mem_append, not_or]
      exact ⟨hcell0, cell_not_mem_released ha.1⟩
    have hitem1 : Freed.item nd.item ∉ t0 ++ released cs := by
      simp only [List.mem_append, not_or]
      exact ⟨hitem0, item_not_mem_released hi.1⟩
    have hcell2 : Freed.cell a ∉ t0 ++ released cs ++ [Freed.item nd.item] := by
      simp only [List.mem_append, List.mem_singleton, not_or]
      exact ⟨⟨hcell0, cell_not_mem_released ha.1⟩, by simp⟩
    have hlt : nd.item < h.bufs.length := hv (a, nd) (List.mem_cons_self _ _)
    have hblock : ∃ x, h.bufs[nd.item]? = some x := ⟨h.bufs[nd.item], by simp [hlt]⟩
    obtain ⟨x, hx⟩ := hblock
    have hcell3 : Freed.cell a ∉ t0 ++ (released cs ++ [Freed.item nd.item]) := by
      rw [← List.append_assoc]
      exact hcell2
    rw [hp]
    simp only [freeNode, hcell0, if_false, hnd, ih, hcell1, hx, free, hitem1, hcell2,
      released, List.length_cons, List.append_assoc, List.singleton_append, hcell3]

theorem bagStruct_not_mem_released (cs : List (Nat × node)) :
    Freed.bagStruct ∉ released cs := by
  rw [mem_released]
  rintro ⟨c, -, hx | hx⟩ <;> cases hx

theorem freeBag_spec {h : Heap} {b : bag} {cs : List (Nat × node)} (hown : Owns h b cs)
    {fuel : Nat} (hf : cs.length ≤ fuel) :
    freeBag h fuel b = some (released cs ++ [Freed.bagStruct], cs.length + 1) := by
  have hnode := freeNode_spec cs fuel [] b.head hown.cells hown.addrs hown.items
    (fun c hc => (hown.valid c hc).2) (fun x _ => by simp) hf
  simp only [List.nil_append] at hnode
  simp only [freeBag, hnode, free, bagStruct_not_mem_released cs, if_false]

theorem releases_nodup {cs : List (Nat × node)} (ha : (cs.map Prod.fst).Nodup)
    (hi : (cs.map (fun c => c.2.item)).Nodup) :
    (released cs ++ [Freed.bagStruct]).Nodup := by
  rw [List.nodup_append]
  refine ⟨released_nodup ha hi, by simp, ?_⟩
  intro x hx hx2
  simp only [List.mem_singleton] at hx2
  subst hx2
  exact bagStruct_not_mem_released cs hx

theorem reachable_addAll : ∀ (xs : List (List Byte)) {h h1 : Heap} {b b1 : bag},
    Reachable h b → addAll h b xs = some (h1, b1) → Reachable h1 b1
  | [], h, h1, b, b1, hr, e => by
    simp only [addAll, Option.some.injEq, Prod.mk.injEq] at e
    obtain ⟨rfl, rfl⟩ := e
    exact hr
  | x :: xs, h, h1, b, b1, hr, e => by
    cases hstep : addItem h b x with
    | none => simp [addAll, hstep] at e
    | some s =>
      obtain ⟨h2, b2⟩ := s
      have e2 : addAll h2 b2 xs = some (h1, b1) := by simpa [addAll, hstep] using e
      exact reachable_addAll xs (Reachable.add _ _ (Reachable.store x hr) hstep) e2

theorem addAll_newBag_nonempty (h0 : Heap) (xs : List (List Byte))
    (hx : xs.length ≠ 0) :
    ∃ h b, addAll h0 newBag xs = some (h, b) ∧ b.head.isSome = true ∧
      b.size = wrapInt xs.length := by
  obtain ⟨h, b, l, e1, e2, e3, e4⟩ := addAll_newBag_chain h0 xs
  refine ⟨h, b, e1, ?_, e4⟩
  have hh := e2.chain.head_eq
  cases l with
  | nil => simp at e3; exact absurd e3.symm hx
  | cons ax l1 => rw [hh]; rfl

/-! ## The claims -/

/-- In this model, where the count wraps at 32 bits:
for every sequence of N items (N zero or not a multiple
of 2^32, items of any byte lengths) added with `add` to a bag made by
`newBag`, the calls `itens(bag, TRUE)` and then N times `itens(bag, FALSE)`
return N non-absent results followed by one absent result, and the multiset of
the returned byte strings is the multiset of the inserted ones. -/
theorem iteration_complete_when_count_nonzero (h0 : Heap) (xs : List (List Byte))
    (hN : xs.length = 0 ∨ xs.length % 4294967296 ≠ 0) :
    ∃ (h : Heap) (b : bag) (h1 : Heap) (b1 : bag) (rs : List (List Byte)),
      addAll h0 newBag xs = some (h, b) ∧
      calls h b (true :: List.replicate xs.length false)
        = some (rs.map some ++ [none], h1, b1) ∧
      rs.length = xs.length ∧ Multiset.ofList rs = Multiset.ofList xs := by
  obtain ⟨h, b, l, e1, e2, e3, e4⟩ := addAll_newBag h0 xs
  have hlen : l.length = xs.length := by
    have := congrArg List.length e3
    simpa using this
  by_cases hz : xs.length = 0
  · have hs : b.size = 0 := by rw [e4, hz]; rfl
    refine ⟨h, b, h, b, [], e1, ?_, hz.symm, ?_⟩
    · rw [hz, calls_of_size_zero _ h b hs]
      rfl
    · have : xs = [] := List.length_eq_zero.mp hz
      rw [this]
  · have hs : b.size ≠ 0 := by
      rw [e4]
      intro hc
      rcases hN with h0 | h1
      · exact hz h0
      · exact h1 ((wrapInt_natCast_eq_zero _).mp hc)
    obtain ⟨h1, b1, f1, -⟩ := traversal_calls e2 hs
    refine ⟨h, b, h1, b1, xs.reverse, e1, ?_, by simp, ?_⟩
    · rw [← hlen, f1, ← e3]
      simp
    · exact Multiset.coe_eq_coe.mpr (List.reverse_perm xs)

/-- An example:
the three byte strings "a", "bb", "ccc" of the spec's
example. -/
theorem iteration_complete_when_count_nonzero_example :
    ([exA, exB, exC].length = 0 ∨ [exA, exB, exC].length % 4294967296 ≠ 0) ∧
    ∃ (h : Heap) (b : bag) (h1 : Heap) (b1 : bag) (rs : List (List Byte)),
      addAll emptyHeap newBag [exA, exB, exC] = some (h, b) ∧
      calls h b (true :: List.replicate [exA, exB, exC].length false)
        = some (rs.map some ++ [none], h1, b1) ∧
      rs.length = [exA, exB, exC].length ∧
      Multiset.ofList rs = Multiset.ofList [exA, exB, exC] :=
  ⟨by decide, iteration_complete_when_count_nonzero emptyHeap [exA, exB, exC] (by decide)⟩

/-- C1, failing input: after 2^32 items (each of zero bytes) were added to a
new bag the count is back to zero, and the reset call `itens(bag, TRUE)`
returns absent although 2^32 items are stored. -/
theorem C1_failing_input :
    ((addAll emptyHeap newBag (List.replicate 4294967296 [])).bind
      (fun s => calls s.1 s.2 [true])).map (fun t => t.1) = some [none] := by
  obtain ⟨h, b, l, e1, -, -, e4⟩ :=
    addAll_newBag emptyHeap (List.replicate 4294967296 [])
  rw [List.length_replicate] at e4
  have hs : b.size = 0 := by rw [e4]; decide
  rw [e1]
  simp only [Option.bind]
  rw [calls_of_size_zero _ h b hs]
  rfl


/-- In this model, where the count wraps at 32 bits:
for every finite sequence of `add` calls applied to a
bag returned by `newBag`, with `itens` calls interleaved or not, every call is
defined and `size(bag)` is the number of `add` calls made reduced to the range
of a 32-bit `int`; it is that number itself whenever fewer than 2^31 `add`
calls were made. -/
theorem size_counts_adds_mod (h0 : Heap) (ops : List Op) :
    ∃ h b, run h0 newBag ops = some (h, b) ∧
      size b = wrapInt (numAdds ops) ∧
      (numAdds ops < 2147483648 → size b = numAdds ops) := by
  obtain ⟨h, b, l, pos, e1, -, e3⟩ := run_spec ops (rep_newBag h0)
  have hs : size b = wrapInt (numAdds ops) := by
    simpa [size, newBag] using e3
  exact ⟨h, b, e1, hs, fun hlt => by rw [hs, wrapInt_of_lt _ hlt]⟩

/-- An example:
three `add` calls with `itens` calls in between leave the
size at 3. -/
theorem size_counts_adds_mod_example :
    ∃ h b, run emptyHeap newBag
        [Op.add exA, Op.itens true, Op.add exB, Op.itens false, Op.add exC] = some (h, b) ∧
      size b = 3 := by
  obtain ⟨h, b, e1, -, e3⟩ := size_counts_adds_mod emptyHeap
    [Op.add exA, Op.itens true, Op.add exB, Op.itens false, Op.add exC]
  exact ⟨h, b, e1, e3 (by decide)⟩

/-- C2, failing input: after 2^31 `add` calls on a new bag `size(bag)` is
-2^31, not 2^31. -/
theorem C2_failing_input :
    numAdds (List.replicate 2147483648 (Op.add [])) = 2147483648 ∧
    (run emptyHeap newBag (List.replicate 2147483648 (Op.add []))).map
      (fun s => size s.2) = some (-2147483648) := by
  refine ⟨numAdds_replicate_add _ _, ?_⟩
  obtain ⟨h, b, l, pos, e1, -, e3⟩ :=
    run_spec (List.replicate 2147483648 (Op.add [])) (rep_newBag emptyHeap)
  rw [numAdds_replicate_add] at e3
  have hs : b.size = -2147483648 := by rw [e3]; decide
  rw [e1]
  simp only [Option.map, size, hs]


/-- In this model, where the count wraps at 32 bits:
for every bag, every buffer `buf` holding the bytes `bs`
and every `n` not larger than the length of `buf`, provided the count after
the insertion is not zero (it is zero only when the bag held 2^32 - 1 items,
modulo 2^32), `add(bag, buf, n)` is defined and afterwards, whatever `w` the
caller writes into `buf`, `itens(bag, TRUE)` returns a block of `n` bytes equal
to the first `n` bytes that `buf` held at the moment of the `add`. -/
theorem add_copy_independent_when_count_nonzero (h : Heap) (b : bag) (buf n : Nat) (bs : List Byte)
    (hb : h.bufs[buf]? = some bs) (hn : n ≤ bs.length)
    (hsz : wrapInt (b.size + 1) ≠ 0) :
    ∃ h1 b1, add h b buf n = some (h1, b1) ∧
      ∀ w : List Byte, ∃ h2 b2 r,
        itens (write h1 buf w) b1 true = some (h2, b2, some r) ∧
        h2.bufs[r]? = some (bs.take n) ∧ (bs.take n).length = n := by
  refine ⟨_, _, add_eq h b buf n bs hb hn, fun w => ?_⟩
  have hlt := getElem?_lt hb
  have hne : buf ≠ h.bufs.length := by omega
  refine ⟨_, _, _, @itens_true_eq _ _ h.nodes.length
    { item := h.bufs.length, nItem := n, next := b.head } (bs.take n) hsz rfl
    (by simp [write]) (by simp [write, List.getElem?_set_ne hne]) (by simp [hn]), ?_,
    by simp [hn]⟩
  simp [store]

/-- An example:
a bag holding "a", the buffer "ccc" added with `n = 2`. -/
theorem add_copy_independent_when_count_nonzero_example :
    ∃ h1 b1, add { bufs := [exA, exA, exC], nodes := [{ item := 1, nItem := 1, next := none }] }
        { head := some 0, current := none, size := 1 } 2 2 = some (h1, b1) ∧
      ∀ w : List Byte, ∃ h2 b2 r,
        itens (write h1 2 w) b1 true = some (h2, b2, some r) ∧
        h2.bufs[r]? = some (exC.take 2) ∧ (exC.take 2).length = 2 :=
  add_copy_independent_when_count_nonzero
    { bufs := [exA, exA, exC], nodes := [{ item := 1, nItem := 1, next := none }] }
    { head := some 0, current := none, size := 1 } 2 2 exC rfl (by decide) (by decide)

/-- C3, failing input: a bag built by 2^32 - 1 `add` calls has count -1;
after one more `add` of the one-byte buffer `[7]` the count is zero and
`itens(bag, TRUE)` returns absent instead of a copy of that byte. -/
theorem C3_failing_input :
    ((addAll emptyHeap newBag (List.replicate 4294967295 [])).bind
      (fun s => (add (store s.1 [7]).1 s.2 (store s.1 [7]).2 1).bind
        (fun t => itens t.1 t.2 true))).map (fun u => u.2.2) = some none := by
  obtain ⟨h, b, l, e1, e2, -, e4⟩ :=
    addAll_newBag emptyHeap (List.replicate 4294967295 [])
  rw [List.length_replicate] at e4
  obtain ⟨h1, b1, f1, -, -, -, f5⟩ := addItem_spec e2 [7]
  have hs : b1.size = 0 := by rw [f5, e4]; decide
  have f1' : add (store h [7]).1 b (store h [7]).2 1 = some (h1, b1) := f1
  rw [e1]
  simp only [Option.bind, f1']
  simp [itens, isEmpty, hs]


/-- C4: for every bag built by `newBag` and `add` calls (and more generally
every bag a caller can reach), a full traversal (`itens(bag, TRUE)`, then
`itens(bag, FALSE)` until absent) ends, and a second full traversal performed
right after it returns the same sequence of byte strings. -/
theorem C4_reiterable (h : Heap) (b : bag) (hr : Reachable h b) :
    ∃ n, ∀ fuel, n ≤ fuel → ∃ rs h1 b1 h2 b2,
      traversal fuel h b = some (rs, h1, b1) ∧
      traversal fuel h1 b1 = some (rs, h2, b2) := by
  obtain ⟨l, pos, hrep⟩ := rep_of_reachable hr
  refine ⟨l.length, fun fuel hf => ?_⟩
  obtain ⟨h1, b1, pos1, e1, e2, e3⟩ := traversal_spec hrep hf
  obtain ⟨h2, b2, pos2, f1, -, -⟩ := traversal_spec e2 hf
  rw [e3] at f1
  exact ⟨_, h1, b1, h2, b2, e1, f1⟩

/-- C4, witness: the bag holding "a", "bb", "ccc". -/
theorem C4_reiterable_witness :
    Reachable exHeap exBag ∧
    ∃ n, ∀ fuel, n ≤ fuel → ∃ rs h1 b1 h2 b2,
      traversal fuel exHeap exBag = some (rs, h1, b1) ∧
      traversal fuel h1 b1 = some (rs, h2, b2) :=
  ⟨reachable_of_run [Op.add exA, Op.add exB, Op.add exC] (Reachable.newBag emptyHeap) rfl,
   C4_reiterable exHeap exBag
    (reachable_of_run [Op.add exA, Op.add exB, Op.add exC] (Reachable.newBag emptyHeap) rfl)⟩

/-- C5: the bag returned by `newBag` has head absent, cursor absent and count
zero; `size` returns 0, `isEmpty` returns true, and `itens` returns absent both
with `init` TRUE and with `init` FALSE, leaving heap and bag as they were. -/
theorem C5_empty_bag :
    newBag.head = none ∧ newBag.current = none ∧ newBag.size = 0 ∧
    size newBag = 0 ∧ isEmpty newBag = true ∧
    ∀ (h : Heap) (init : Bool), itens h newBag init = some (h, newBag, none) := by
  refine ⟨rfl, rfl, rfl, rfl, rfl, fun h init => ?_⟩
  simp [itens, isEmpty, newBag]


/-- With emptiness read as `isEmpty`, a count of zero:
for every bag reachable from `newBag` by `add` and `itens` calls,
`itens(bag, init)` is defined and returns absent if and only if the bag is
empty (`isEmpty`, count zero), or `init` is FALSE and the cursor is absent or
on a cell whose `next` is absent (the last cell); in every other case it
returns a newly allocated block holding the bytes of a cell of the chain. -/
theorem absent_iff_count_zero_or_end (h : Heap) (b : bag) (init : Bool) (hr : Reachable h b) :
    ∃ h1 b1 r, itens h b init = some (h1, b1, r) ∧
      (r = none ↔
        (isEmpty b = true ∨
          (init = false ∧
            (b.current = none ∨
              ∃ a nd, b.current = some a ∧ h.nodes[a]? = some nd ∧ nd.next = none)))) ∧
      (∀ p, r = some p →
        ∃ l ax, Chain h b.head l ∧ ax ∈ l ∧ h.bufs[p]? = none ∧
          h1.bufs[p]? = some ax.2) := by
  obtain ⟨l, pos, hrep⟩ := rep_of_reachable hr
  obtain ⟨h1, b1, r, e1, e2, e3, e4, e5, e6, e7, e8⟩ := itens_spec hrep init
  refine ⟨h1, b1, r, e1, ?_, ?_⟩
  · have e := e1
    unfold itens at e
    by_cases hemp : isEmpty b = true
    · simp only [hemp, if_true, Option.some.injEq, Prod.mk.injEq] at e
      simp [hemp, e.2.2.symm]
    · simp only [hemp, Bool.false_eq_true, if_false] at e
      cases init with
      | true =>
        simp only [if_true] at e
        obtain ⟨p, rfl⟩ := copyCurrent_some e
        simp [hemp]
      | false =>
        simp only [Bool.false_eq_true, if_false] at e
        cases hcur : b.current with
        | none =>
          simp only [hcur, Option.some.injEq, Prod.mk.injEq] at e
          simp [e.2.2.symm]
        | some a =>
          simp only [hcur] at e
          cases hnd : h.nodes[a]? with
          | none => simp [hnd] at e
          | some nd =>
            simp only [hnd] at e
            cases hnext : nd.next with
            | none =>
              simp only [hnext, Option.some.injEq, Prod.mk.injEq] at e
              simp [e.2.2.symm, hnd, hnext]
            | some n =>
              simp only [hnext] at e
              obtain ⟨p, rfl⟩ := copyCurrent_some e
              simp [hemp, hnd, hnext]
  · intro p hp
    cases hres : (absItens l b.size pos init).2 with
    | none =>
      rw [(e7 hres).1] at hp
      cases hp
    | some x =>
      obtain ⟨f1, f2⟩ := e8 x hres
      obtain ⟨ax, hmem, rfl⟩ := absItens_mem hres
      rw [f1] at hp
      cases hp
      exact ⟨l, ax, hrep.chain, hmem, List.getElem?_eq_none (le_refl _), by simp [f2]⟩

/-- An example:
an advance call on the bag holding "a", "bb", "ccc" before
any reset. -/
theorem absent_iff_count_zero_or_end_example :
    Reachable exHeap exBag ∧
    ∃ h1 b1 r, itens exHeap exBag false = some (h1, b1, r) ∧
      (r = none ↔
        (isEmpty exBag = true ∨
          (false = false ∧
            (exBag.current = none ∨
              ∃ a nd, exBag.current = some a ∧ exHeap.nodes[a]? = some nd ∧
                nd.next = none)))) ∧
      (∀ p, r = some p →
        ∃ l ax, Chain exHeap exBag.head l ∧ ax ∈ l ∧ exHeap.bufs[p]? = none ∧
          h1.bufs[p]? = some ax.2) :=
  ⟨reachable_of_run [Op.add exA, Op.add exB, Op.add exC] (Reachable.newBag emptyHeap) rfl,
   absent_iff_count_zero_or_end exHeap exBag false
    (reachable_of_run [Op.add exA, Op.add exB, Op.add exC] (Reachable.newBag emptyHeap) rfl)⟩


/-- C6, failing input: after 2^32 items (each of zero bytes) were added to a
new bag, `head` refers to a cell, so the bag is not empty, and still the reset
call `itens(bag, TRUE)` returns absent, because the count is back to zero. -/
theorem C6_failing_input :
    (addAll emptyHeap newBag (List.replicate 4294967296 [])).bind
      (fun s => (itens s.1 s.2 true).map (fun t => (s.2.head.isSome, t.2.2)))
      = some (true, none) := by
  obtain ⟨h, b, e1, e2, e3⟩ :=
    addAll_newBag_nonempty emptyHeap (List.replicate 4294967296 [])
      (by rw [List.length_replicate]; decide)
  rw [List.length_replicate] at e3
  have hs : b.size = 0 := by rw [e3]; decide
  rw [e1]
  simp only [Option.bind, itens, isEmpty, hs, beq_self_eq_true, if_true, Option.map, e2]

/-- In this model, where the count wraps at 32 bits:
for every bag with chain `l` and count `k`,
`add(bag, item, n)` (with `n` bytes readable at `item`) yields a bag whose
head is a new cell holding the `n` copied bytes in a new block, with stored
length `n`, followed by exactly `l` (same cells, same contents, same order);
the cursor is unchanged and the count is `k + 1` in 32-bit arithmetic, which
is `k + 1` itself whenever `k` is an `int` below 2^31 - 1. -/
theorem add_postcondition_mod (h : Heap) (b : bag) (l : List (Nat × List Byte))
    (item n : Nat) (bs : List Byte)
    (hc : Chain h b.head l) (hb : h.bufs[item]? = some bs) (hn : n ≤ bs.length) :
    ∃ h1 b1 p nd, add h b item n = some (h1, b1) ∧
      h.nodes[p]? = none ∧ b1.head = some p ∧ h1.nodes[p]? = some nd ∧
      nd.nItem = n ∧ nd.next = b.head ∧
      h.bufs[nd.item]? = none ∧ h1.bufs[nd.item]? = some (bs.take n) ∧
      (bs.take n).length = n ∧
      Chain h1 b1.head ((p, bs.take n) :: l) ∧ Chain h1 b.head l ∧
      b1.current = b.current ∧ b1.size = wrapInt (b.size + 1) ∧
      (-2147483648 ≤ b.size → b.size < 2147483647 → b1.size = b.size + 1) := by
  have hext : Extends h
      { bufs := h.bufs ++ [bs.take n],
        nodes := h.nodes ++ [{ item := h.bufs.length, nItem := n, next := b.head }] } :=
    ⟨List.prefix_append _ _, List.prefix_append _ _⟩
  have hlen : (bs.take n).length = n := by simp [hn]
  refine ⟨_, _, h.nodes.length, { item := h.bufs.length, nItem := n, next := b.head },
    add_eq h b item n bs hb hn, List.getElem?_eq_none (le_refl _), rfl, by simp, rfl, rfl,
    List.getElem?_eq_none (le_refl _), by simp, hlen, ?_, hc.extend hext, rfl, rfl, ?_⟩
  · exact ⟨rfl, { item := h.bufs.length, nItem := n, next := b.head }, by simp,
      hlen.symm, by simp, hc.extend hext⟩
  · intro h1 h2
    simp only [wrapInt]
    omega

/-- An example:
"ccc" added to the bag holding "a", "bb", "ccc", from the
buffer at address 4. -/
theorem add_postcondition_mod_example :
    Chain exHeap exBag.head [(2, exC), (1, exB), (0, exA)] ∧
    ∃ h1 b1 p nd, add exHeap exBag 4 3 = some (h1, b1) ∧
      exHeap.nodes[p]? = none ∧ b1.head = some p ∧ h1.nodes[p]? = some nd ∧
      nd.nItem = 3 ∧ nd.next = exBag.head ∧
      exHeap.bufs[nd.item]? = none ∧ h1.bufs[nd.item]? = some (exC.take 3) ∧
      (exC.take 3).length = 3 ∧
      Chain h1 b1.head ((p, exC.take 3) :: [(2, exC), (1, exB), (0, exA)]) ∧
      Chain h1 exBag.head [(2, exC), (1, exB), (0, exA)] ∧
      b1.current = exBag.current ∧ b1.size = wrapInt (exBag.size + 1) ∧
      (-2147483648 ≤ exBag.size → exBag.size < 2147483647 →
        b1.size = exBag.size + 1) :=
  ⟨by simp [Chain, exHeap, exBag, exA, exB, exC],
   add_postcondition_mod exHeap exBag [(2, exC), (1, exB), (0, exA)] 4 3 exC
    (by simp [Chain, exHeap, exBag, exA, exB, exC]) rfl (by decide)⟩

/-- C7, failing input: on a bag built by 2^31 - 1 `add` calls, whose count is
2^31 - 1, one more `add` leaves the count at -2^31, not at 2^31. -/
theorem C7_failing_input :
    (addAll emptyHeap newBag (List.replicate 2147483647 [])).bind
      (fun s => (add (store s.1 []).1 s.2 (store s.1 []).2 0).map
        (fun t => (size s.2, size t.2))) = some (2147483647, -2147483648) := by
  obtain ⟨h, b, l, e1, e2, -, e4⟩ :=
    addAll_newBag emptyHeap (List.replicate 2147483647 [])
  rw [List.length_replicate] at e4
  obtain ⟨h1, b1, f1, -, -, -, f5⟩ := addItem_spec e2 []
  have hs : b.size = 2147483647 := by rw [e4]; decide
  have hs1 : b1.size = -2147483648 := by rw [f5, hs]; decide
  have f1' : add (store h []).1 b (store h []).2 0 = some (h1, b1) := f1
  rw [e1]
  simp only [Option.bind, f1', Option.map, size, hs, hs1]

/-- C8: for every reachable bag and either value of `init`, `itens(bag,
init)` is defined and leaves the chain (cells, stored byte strings, lengths,
order), the head and the count unchanged, as well as every cell and every
block that existed before the call; a returned pointer is a block that did not
exist before, and whatever the caller writes into it, the chain is still the
same and every later sequence of `itens` calls returns the same byte
strings. -/
theorem C8_itens_frame (h : Heap) (b : bag) (init : Bool) (hr : Reachable h b) :
    ∃ l h1 b1 r, itens h b init = some (h1, b1, r) ∧
      Chain h b.head l ∧ Chain h1 b1.head l ∧
      b1.head = b.head ∧ b1.size = b.size ∧ h1.nodes = h.nodes ∧ h.bufs <+: h1.bufs ∧
      ∀ p w, r = some p →
        h.bufs[p]? = none ∧ Chain (write h1 p w) b1.head l ∧
        (write h1 p w).nodes = h.nodes ∧ h.bufs <+: (write h1 p w).bufs ∧
        ∀ is, (calls (write h1 p w) b1 is).map (fun t => t.1)
          = (calls h1 b1 is).map (fun t => t.1) := by
  obtain ⟨l, pos, hrep⟩ := rep_of_reachable hr
  obtain ⟨h1, b1, r, e1, e2, e3, e4, e5, e6, e7, e8⟩ := itens_spec hrep init
  refine ⟨l, h1, b1, r, e1, hrep.chain, e2.chain, e4, e5, e6, ?_, ?_⟩
  · cases hres : (absItens l b.size pos init).2 with
    | none => rw [(e7 hres).2.1]
    | some x => rw [(e8 x hres).2]; exact List.prefix_append _ _
  · intro p w hp
    cases hres : (absItens l b.size pos init).2 with
    | none =>
      rw [(e7 hres).1] at hp
      cases hp
    | some x =>
      obtain ⟨f1, f2⟩ := e8 x hres
      rw [f1] at hp
      cases hp
      have hw : (write h1 h.bufs.length w).bufs = h.bufs ++ [w] := by
        simp [write, f2, set_length_append]
      have hext : Extends h (write h1 h.bufs.length w) :=
        ⟨by rw [hw]; exact List.prefix_append _ _, by simp [write, e6]⟩
      have hrep2 : Rep (write h1 h.bufs.length w) b1 l (absItens l b.size pos init).1 :=
        ⟨by rw [e4]; exact hrep.chain.extend hext, e2.cursor, e2.count⟩
      refine ⟨List.getElem?_eq_none (le_refl _), hrep2.chain, by simp [write, e6],
        by rw [hw]; exact List.prefix_append _ _, fun is => ?_⟩
      obtain ⟨h2, b2, g1, -⟩ := calls_spec is e2
      obtain ⟨h3, b3, g2, -⟩ := calls_spec is hrep2
      rw [g1, g2]
      rfl

/-- C8, witness: a reset call on the bag holding "a", "bb", "ccc". -/
theorem C8_itens_frame_witness :
    Reachable exHeap exBag ∧
    ∃ l h1 b1 r, itens exHeap exBag true = some (h1, b1, r) ∧
      Chain exHeap exBag.head l ∧ Chain h1 b1.head l ∧
      b1.head = exBag.head ∧ b1.size = exBag.size ∧ h1.nodes = exHeap.nodes ∧
      exHeap.bufs <+: h1.bufs ∧
      ∀ p w, r = some p →
        exHeap.bufs[p]? = none ∧ Chain (write h1 p w) b1.head l ∧
        (write h1 p w).nodes = exHeap.nodes ∧ exHeap.bufs <+: (write h1 p w).bufs ∧
        ∀ is, (calls (write h1 p w) b1 is).map (fun t => t.1)
          = (calls h1 b1 is).map (fun t => t.1) :=
  ⟨reachable_of_run [Op.add exA, Op.add exB, Op.add exC] (Reachable.newBag emptyHeap) rfl,
   C8_itens_frame exHeap exBag true
    (reachable_of_run [Op.add exA, Op.add exB, Op.add exC] (Reachable.newBag emptyHeap) rfl)⟩


/-- With emptiness read as `isEmpty`, a count of zero:
for every reachable bag that is not empty (`isEmpty` false), once an
advance call `itens(bag, FALSE)` has returned absent, any number `k` of
further advance calls return absent as well, and the next `itens(bag, TRUE)`
returns the item of the first cell of the chain and puts the cursor on it. -/
theorem exhaustion_sticky_when_count_nonzero (h h1 : Heap) (b b1 : bag) (hr : Reachable h b)
    (hne : isEmpty b = false) (habs : itens h b false = some (h1, b1, none)) (k : Nat) :
    ∃ a x l h2 b2, Chain h b.head ((a, x) :: l) ∧
      calls h1 b1 (List.replicate k false ++ [true])
        = some (List.replicate k none ++ [some x], h2, b2) ∧
      b2.current = some a := by
  obtain ⟨l, pos, hrep⟩ := rep_of_reachable hr
  obtain ⟨rfl, rfl⟩ := itens_none_unchanged habs
  have hs : b1.size ≠ 0 := by simpa [isEmpty] using hne
  obtain ⟨⟨a, x⟩, l1, rfl⟩ := List.exists_cons_of_ne_nil (hrep.ne_nil hs)
  obtain ⟨hp, nd, g1, g2, g3, -⟩ := hrep.chain
  have htrue := itens_true_eq hs hp g1 g3 g2
  refine ⟨a, x, l1, (store h1 x).1, { b1 with current := some a }, hrep.chain, ?_, rfl⟩
  induction k with
  | zero => simp [calls, htrue, readResult, store]
  | succ k ih =>
    rw [List.replicate_succ, List.cons_append]
    simp only [calls, habs, readResult, ih, List.replicate_succ, List.cons_append]

/-- An example:
the bag holding "a", "bb", "ccc" at the end of a full
traversal, three further advance calls and a reset. -/
theorem exhaustion_sticky_when_count_nonzero_example :
    Reachable exHeapEnd exBagEnd ∧ isEmpty exBagEnd = false ∧
    itens exHeapEnd exBagEnd false = some (exHeapEnd, exBagEnd, none) ∧
    ∃ a x l h2 b2, Chain exHeapEnd exBagEnd.head ((a, x) :: l) ∧
      calls exHeapEnd exBagEnd (List.replicate 3 false ++ [true])
        = some (List.replicate 3 none ++ [some x], h2, b2) ∧
      b2.current = some a :=
  ⟨reachable_of_run
      [Op.add exA, Op.add exB, Op.add exC, Op.itens true, Op.itens false, Op.itens false]
      (Reachable.newBag emptyHeap) rfl,
   rfl, rfl,
   exhaustion_sticky_when_count_nonzero exHeapEnd exHeapEnd exBagEnd exBagEnd
    (reachable_of_run
      [Op.add exA, Op.add exB, Op.add exC, Op.itens true, Op.itens false, Op.itens false]
      (Reachable.newBag emptyHeap) rfl) rfl rfl 3⟩

/-- C9, failing input: after 2^32 one-byte items were added to a new bag,
`head` refers to a cell, so the bag is not empty; a reset and two advance
calls return absent, and the next `itens(bag, TRUE)` returns absent as well
instead of the first item of the chain. -/
theorem C9_failing_input :
    (addAll emptyHeap newBag (List.replicate 4294967296 [9])).bind
      (fun s => (calls s.1 s.2 [true, false, false, true]).map
        (fun t => (s.2.head.isSome, t.1)))
      = some (true, [none, none, none, none]) := by
  obtain ⟨h, b, e1, e2, e3⟩ :=
    addAll_newBag_nonempty emptyHeap (List.replicate 4294967296 [9])
      (by rw [List.length_replicate]; decide)
  rw [List.length_replicate] at e3
  have hs : b.size = 0 := by rw [e3]; decide
  rw [e1]
  simp only [Option.bind]
  rw [calls_of_size_zero _ h b hs]
  simp only [Option.map, e2]
  rfl

/-- In this model, where the count wraps at 32 bits:
for any two reachable bag states in the same heap with
the same head (hence the same chain) and the same count, `itens(bag, TRUE)` is
defined on both and returns the same result with the same heap; when the count
is not zero the two resulting bag states are equal, with the cursor on the
head of the chain and a non-absent result; when the count is zero the result
is absent and each state, its cursor included, is left as it was. -/
theorem reset_discards_progress_when_count_nonzero (h : Heap) (b1 b2 : bag)
    (hr1 : Reachable h b1) (hh : b1.head = b2.head) (hs : b1.size = b2.size) :
    ∃ h1 c1 c2 r, itens h b1 true = some (h1, c1, r) ∧
      itens h b2 true = some (h1, c2, r) ∧
      (isEmpty b1 = false → c1 = c2 ∧ c1.current = b1.head ∧ r ≠ none) ∧
      (isEmpty b1 = true → r = none ∧ h1 = h ∧ c1 = b1 ∧ c2 = b2) := by
  obtain ⟨l, pos, hrep⟩ := rep_of_reachable hr1
  by_cases hz : b1.size = 0
  · have hz2 : b2.size = 0 := hs ▸ hz
    exact ⟨h, b1, b2, none, by simp [itens, isEmpty, hz], by simp [itens, isEmpty, hz2],
      by simp [isEmpty, hz], fun _ => ⟨rfl, rfl, rfl, rfl⟩⟩
  · have hz2 : b2.size ≠ 0 := hs ▸ hz
    obtain ⟨⟨a, x⟩, l1, rfl⟩ := List.exists_cons_of_ne_nil (hrep.ne_nil hz)
    obtain ⟨hp, nd, g1, g2, g3, -⟩ := hrep.chain
    refine ⟨_, _, _, _, itens_true_eq hz hp g1 g3 g2,
      itens_true_eq hz2 (hh ▸ hp) g1 g3 g2, fun _ => ⟨?_, hp.symm, by simp⟩, ?_⟩
    · rw [hh, hs]
    · intro he
      simp [isEmpty, hz] at he

/-- An example:
the bag holding "a", "bb", "ccc" with the cursor absent
and with the cursor on the last cell, in the same heap. -/
theorem reset_discards_progress_when_count_nonzero_example :
    Reachable exHeapEnd exBag ∧
    ∃ h1 c1 c2 r,
      itens exHeapEnd exBag true = some (h1, c1, r) ∧
      itens exHeapEnd exBagEnd true = some (h1, c2, r) ∧
      (isEmpty exBag = false → c1 = c2 ∧ c1.current = exBag.head ∧ r ≠ none) ∧
      (isEmpty exBag = true → r = none ∧ h1 = exHeapEnd ∧ c1 = exBag ∧ c2 = exBagEnd) := by
  have h0 : Reachable exHeap exBag :=
    reachable_of_run [Op.add exA, Op.add exB, Op.add exC] (Reachable.newBag emptyHeap) rfl
  have h3 : Reachable exHeapEnd exBag :=
    Reachable.store exA (Reachable.store exB (Reachable.store exC h0))
  exact ⟨h3, reset_discards_progress_when_count_nonzero exHeapEnd exBag exBagEnd h3 rfl rfl⟩


/-- C10, failing input: two items are added and the cursor is put on the
head (two reset calls) or on the last cell (a reset and an advance call); then
2^32 - 2 more items are added, which brings the count to zero.  The two states
have the same heap, head and count, `itens(bag, TRUE)` returns absent on both,
and it leaves the cursor where it was, on different cells. -/
theorem C10_failing_input :
    ((run emptyHeap newBag [Op.add [], Op.add [], Op.itens true, Op.itens true]).bind
        (fun s => addAll s.1 s.2 (List.replicate 4294967294 []))).map
        (fun s => (s.1, s.2.head, s.2.size))
      = ((run emptyHeap newBag [Op.add [], Op.add [], Op.itens true, Op.itens false]).bind
        (fun s => addAll s.1 s.2 (List.replicate 4294967294 []))).map
        (fun s => (s.1, s.2.head, s.2.size)) ∧
    ((run emptyHeap newBag [Op.add [], Op.add [], Op.itens true, Op.itens true]).bind
        (fun s => addAll s.1 s.2 (List.replicate 4294967294 []))).bind
        (fun s => (itens s.1 s.2 true).map (fun t => (t.2.1.current, t.2.2)))
      = some (some 1, none) ∧
    ((run emptyHeap newBag [Op.add [], Op.add [], Op.itens true, Op.itens false]).bind
        (fun s => addAll s.1 s.2 (List.replicate 4294967294 []))).bind
        (fun s => (itens s.1 s.2 true).map (fun t => (t.2.1.current, t.2.2)))
      = some (some 0, none) :=
  reset_on_wrapped_count (List.replicate 4294967294 [])
    (by rw [List.length_replicate]; decide)

/-- In this model, where the count wraps at 32 bits:
for every bag state `isEmpty(bag)` is true if and only
if `size(bag) == 0`; for a bag built from `newBag` by a sequence of calls with
N `add` calls it is true if and only if N is a multiple of 2^32, hence, when
fewer than 2^32 `add` calls were made, if and only if no `add` call has been
made. -/
theorem isEmpty_agrees_with_size_mod (h0 : Heap) (ops : List Op) :
    (∀ b : bag, isEmpty b = true ↔ size b = 0) ∧
    ∃ h b, run h0 newBag ops = some (h, b) ∧
      (isEmpty b = true ↔ numAdds ops % 4294967296 = 0) ∧
      (numAdds ops < 4294967296 → (isEmpty b = true ↔ numAdds ops = 0)) := by
  refine ⟨fun b => by simp [isEmpty, size], ?_⟩
  obtain ⟨h, b, l, pos, e1, -, -, -, e5⟩ := run_newBag h0 ops
  have key : isEmpty b = true ↔ numAdds ops % 4294967296 = 0 := by
    simp only [isEmpty, beq_iff_eq, e5]
    exact wrapInt_natCast_eq_zero _
  refine ⟨h, b, e1, key, fun hlt => ?_⟩
  rw [key]
  omega

/-- An example:
two `add` calls and a reset leave a bag that is not empty;
no `add` call leaves an empty one. -/
theorem isEmpty_agrees_with_size_mod_example :
    (∃ h b, run emptyHeap newBag [Op.add exA, Op.itens true, Op.add exB] = some (h, b) ∧
      isEmpty b = false) ∧
    (∃ h b, run emptyHeap newBag [Op.itens true, Op.itens false] = some (h, b) ∧
      isEmpty b = true) := by
  obtain ⟨-, h, b, e1, -, e3⟩ :=
    isEmpty_agrees_with_size_mod emptyHeap [Op.add exA, Op.itens true, Op.add exB]
  obtain ⟨-, h1, b1, f1, -, f3⟩ :=
    isEmpty_agrees_with_size_mod emptyHeap [Op.itens true, Op.itens false]
  refine ⟨⟨h, b, e1, ?_⟩, ⟨h1, b1, f1, (f3 (by decide)).mpr (by decide)⟩⟩
  have := (e3 (by decide)).not
  simpa using this.mpr (by decide)

/-- C11, failing input: after 2^32 `add` calls on a new bag `isEmpty(bag)`
is true. -/
theorem C11_failing_input :
    numAdds (List.replicate 4294967296 (Op.add [])) = 4294967296 ∧
    (run emptyHeap newBag (List.replicate 4294967296 (Op.add []))).map
      (fun s => isEmpty s.2) = some true := by
  refine ⟨numAdds_replicate_add _ _, ?_⟩
  obtain ⟨h, b, l, pos, e1, -, -, -, e5⟩ :=
    run_newBag emptyHeap (List.replicate 4294967296 (Op.add []))
  rw [numAdds_replicate_add] at e5
  have hs : b.size = 0 := by rw [e5]; decide
  rw [e1]
  simp only [Option.map, isEmpty, hs, beq_self_eq_true]

/-- In this model, where the count wraps at 32 bits:
in every bag state reached from `newBag` by any
interleaving of `add` and `itens` calls, every call being defined, the chain
from `head` has one cell per `add` call made, newest first, each cell's stored
byte length is the byte length supplied to the `add` call that created it and
its block holds the supplied bytes; the count field equals the number of cells
in 32-bit arithmetic, hence the number of cells itself whenever there are
fewer than 2^31 of them. -/
theorem representation_invariant_mod (h0 : Heap) (ops : List Op) :
    ∃ h b l, run h0 newBag ops = some (h, b) ∧ Chain h b.head l ∧
      l.length = numAdds ops ∧ l.map Prod.snd = (added ops).reverse ∧
      (∀ ax ∈ l, ∃ nd, h.nodes[ax.1]? = some nd ∧ nd.nItem = ax.2.length ∧
        h.bufs[nd.item]? = some ax.2) ∧
      b.size = wrapInt l.length ∧
      (l.length < 2147483648 → b.size = l.length) := by
  obtain ⟨h, b, l, pos, e1, e2, e3, e4, -⟩ := run_newBag h0 ops
  refine ⟨h, b, l, e1, e2.chain, e4, e3, ?_, e2.count, fun hlt => ?_⟩
  · intro ax hax
    obtain ⟨k, hk⟩ := List.getElem?_of_mem hax
    obtain ⟨nd, g1, g2, g3, -⟩ := e2.chain.get hk
    exact ⟨nd, g1, g2, g3⟩
  · rw [e2.count, wrapInt_of_lt _ hlt]

/-- An example:
"a", "bb", "ccc" added with `itens` calls in between; the
count is 3, the number of cells. -/
theorem representation_invariant_mod_example :
    ∃ h b l, run emptyHeap newBag
        [Op.add exA, Op.itens true, Op.add exB, Op.itens false, Op.add exC] = some (h, b) ∧
      Chain h b.head l ∧ l.length = 3 ∧ l.map Prod.snd = [exC, exB, exA] ∧
      b.size = 3 := by
  obtain ⟨h, b, l, e1, e2, e3, e4, -, -, e7⟩ := representation_invariant_mod emptyHeap
    [Op.add exA, Op.itens true, Op.add exB, Op.itens false, Op.add exC]
  have hl : l.length = 3 := e3
  exact ⟨h, b, l, e1, e2, hl, e4, by rw [e7 (by omega), hl]; rfl⟩

/-- C12, failing input: after 2^31 `add` calls on a new bag the chain from
`head` has 2^31 cells and the count field is -2^31. -/
theorem C12_failing_input :
    ∃ h b l, addAll emptyHeap newBag (List.replicate 2147483648 []) = some (h, b) ∧
      Chain h b.head l ∧ l.length = 2147483648 ∧ b.size = -2147483648 := by
  obtain ⟨h, b, l, e1, e2, e3, e4⟩ :=
    addAll_newBag_chain emptyHeap (List.replicate 2147483648 [])
  rw [List.length_replicate] at e3 e4
  exact ⟨h, b, l, e1, e2.chain, e3, by rw [e4]; decide⟩

/-- In this model, where the count wraps at 32 bits:
for every sequence of items x1, ..., xN added in that
order to a bag made by `newBag`, with N zero or not a multiple of 2^32, the
calls `itens(bag, TRUE)` and then N times `itens(bag, FALSE)` return xN,
x(N-1), ..., x1 in that order and then absent: call number k after the reset
returns the item of the cell at position k of the chain counted from the
head. -/
theorem newest_first_when_count_nonzero (h0 : Heap) (xs : List (List Byte))
    (hN : xs.length = 0 ∨ xs.length % 4294967296 ≠ 0) :
    ∃ h b l h1 b1, addAll h0 newBag xs = some (h, b) ∧ Chain h b.head l ∧
      l.map Prod.snd = xs.reverse ∧
      calls h b (true :: List.replicate xs.length false)
        = some (xs.reverse.map some ++ [none], h1, b1) ∧
      calls h b (true :: List.replicate xs.length false)
        = some (l.map (fun ax => some ax.2) ++ [none], h1, b1) := by
  obtain ⟨h, b, l, e1, e2, e3, e4⟩ := addAll_newBag h0 xs
  have hlen : l.length = xs.length := by
    have := congrArg List.length e3
    simpa using this
  have hmap : l.map (fun ax => some ax.2) = xs.reverse.map some := by
    rw [← e3]
    simp
  by_cases hz : xs.length = 0
  · have hs : b.size = 0 := by rw [e4, hz]; rfl
    have hx : xs = [] := List.length_eq_zero.mp hz
    have hl : l = [] := List.length_eq_zero.mp (hlen.trans hz)
    subst hx
    subst hl
    exact ⟨h, b, [], h, b, e1, e2.chain, e3, by simp [calls_of_size_zero _ h b hs],
      by simp [calls_of_size_zero _ h b hs]⟩
  · have hs : b.size ≠ 0 := by
      rw [e4]
      intro hc
      rcases hN with h0 | h1
      · exact hz h0
      · exact h1 ((wrapInt_natCast_eq_zero _).mp hc)
    obtain ⟨h1, b1, f1, -⟩ := traversal_calls e2 hs
    rw [hlen] at f1
    exact ⟨h, b, l, h1, b1, e1, e2.chain, e3, by rw [f1, hmap], f1⟩

/-- An example:
"a", "bb", "ccc" come back as "ccc", "bb", "a". -/
theorem newest_first_when_count_nonzero_example :
    ∃ h b h1 b1, addAll emptyHeap newBag [exA, exB, exC] = some (h, b) ∧
      calls h b [true, false, false, false]
        = some ([some exC, some exB, some exA, none], h1, b1) := by
  obtain ⟨h, b, l, h1, b1, e1, -, -, e4, -⟩ :=
    newest_first_when_count_nonzero emptyHeap [exA, exB, exC] (by decide)
  exact ⟨h, b, h1, b1, e1, e4⟩

/-- C14, failing input: after 2^32 one-byte items were added to a new bag, a
reset call and an advance call both return absent instead of the two newest
items. -/
theorem C14_failing_input :
    ((addAll emptyHeap newBag (List.replicate 4294967296 [7])).bind
      (fun s => calls s.1 s.2 [true, false])).map (fun t => t.1)
      = some [none, none] := by
  obtain ⟨h, b, l, e1, -, -, e4⟩ :=
    addAll_newBag_chain emptyHeap (List.replicate 4294967296 [7])
  rw [List.length_replicate] at e4
  have hs : b.size = 0 := by rw [e4]; decide
  rw [e1]
  simp only [Option.bind]
  rw [calls_of_size_zero _ h b hs]
  rfl

/-- In this model, where the count wraps at 32 bits:
for every sequence of calls with N `add` calls on a bag
made by `newBag`, the count being a 32-bit `int`, `size(bag)` is non-negative
if and only if N modulo 2^32 is below 2^31, and `isEmpty(bag)` is false if and
only if N is not a multiple of 2^32; so for fewer than 2^31 `add` calls
`size(bag)` is non-negative and `isEmpty(bag)` is false whenever N > 0. -/
theorem size_sign_mod (h0 : Heap) (ops : List Op) :
    ∃ h b, run h0 newBag ops = some (h, b) ∧
      (0 ≤ size b ↔ numAdds ops % 4294967296 < 2147483648) ∧
      (isEmpty b = false ↔ numAdds ops % 4294967296 ≠ 0) ∧
      (numAdds ops < 2147483648 →
        0 ≤ size b ∧ (0 < numAdds ops → isEmpty b = false)) := by
  obtain ⟨h, b, l, pos, e1, -, -, -, e5⟩ := run_newBag h0 ops
  have k1 : 0 ≤ size b ↔ numAdds ops % 4294967296 < 2147483648 := by
    simp only [size, e5, wrapInt]
    omega
  have k2 : isEmpty b = false ↔ numAdds ops % 4294967296 ≠ 0 := by
    have hz := wrapInt_natCast_eq_zero (numAdds ops)
    rw [← e5] at hz
    have hb : isEmpty b = false ↔ ¬ b.size = 0 := by simp [isEmpty]
    rw [hb, hz]
  refine ⟨h, b, e1, k1, k2, fun hlt => ⟨k1.mpr (by omega), fun hpos => k2.mpr (by omega)⟩⟩

/-- An example:
three `add` calls leave a positive size and a bag that is
not empty. -/
theorem size_sign_mod_example :
    ∃ h b, run emptyHeap newBag [Op.add exA, Op.add exB, Op.add exC] = some (h, b) ∧
      0 ≤ size b ∧ isEmpty b = false := by
  obtain ⟨h, b, e1, -, -, e4⟩ :=
    size_sign_mod emptyHeap [Op.add exA, Op.add exB, Op.add exC]
  exact ⟨h, b, e1, (e4 (by decide)).1, (e4 (by decide)).2 (by decide)⟩

/-- C16, failing input: after 2^31 `add` calls on a new bag `size(bag)` is
negative, and after 2^32 `add` calls `isEmpty(bag)` is true. -/
theorem C16_failing_input :
    (addAll emptyHeap newBag (List.replicate 2147483648 [])).map
      (fun s => decide (size s.2 < 0)) = some true ∧
    (addAll emptyHeap newBag (List.replicate 4294967296 [])).map
      (fun s => isEmpty s.2) = some true := by
  obtain ⟨h, b, l, e1, -, -, e4⟩ :=
    addAll_newBag_chain emptyHeap (List.replicate 2147483648 [])
  obtain ⟨h1, b1, l1, f1, -, -, f4⟩ :=
    addAll_newBag_chain emptyHeap (List.replicate 4294967296 [])
  rw [List.length_replicate] at e4 f4
  have hs : b.size = -2147483648 := by rw [e4]; decide
  have hs1 : b1.size = 0 := by rw [f4]; decide
  rw [e1, f1]
  simp only [Option.map, size, isEmpty, hs, hs1]
  exact ⟨by decide, by decide⟩

/-- C18: for every bag state and either value of `init`, whenever
`itens(bag, init)` returns absent the heap and the whole bag state (head,
count and cursor) are the ones before the call; in particular an advance on a
cell whose `next` is absent returns absent and leaves the cursor on that
cell. -/
theorem C18_absent_changes_nothing (h : Heap) (b : bag) (init : Bool) :
    (∀ h1 b1, itens h b init = some (h1, b1, none) → h1 = h ∧ b1 = b) ∧
    (∀ a nd, b.current = some a → h.nodes[a]? = some nd → nd.next = none →
      itens h b false = some (h, b, none)) := by
  refine ⟨fun h1 b1 e => itens_none_unchanged e, fun a nd ha hnd hnext => ?_⟩
  by_cases he : isEmpty b = true
  · simp [itens, he]
  · simp [itens, he, ha, hnd, hnext]

/-- C18, witness: an advance at the end of the traversal of the bag holding
"a", "bb", "ccc" leaves heap and bag as they were, the cursor on the last
cell. -/
theorem C18_absent_changes_nothing_witness :
    itens exHeapEnd exBagEnd false = some (exHeapEnd, exBagEnd, none) ∧
    (∀ h1 b1, itens exHeapEnd exBagEnd false = some (h1, b1, none) →
      h1 = exHeapEnd ∧ b1 = exBagEnd) :=
  ⟨(C18_absent_changes_nothing exHeapEnd exBagEnd false).2 0
      { item := 1, nItem := 1, next := none } rfl rfl rfl,
   (C18_absent_changes_nothing exHeapEnd exBagEnd false).1⟩

/-- C19: in every reachable bag state the cursor is either absent or refers
to a cell of the chain from `head`, and it is absent whenever the bag is
empty, that is whenever `head` is absent and the chain has no cell. -/
theorem C19_cursor_valid (h : Heap) (b : bag) (hr : Reachable h b) :
    ∃ l, Chain h b.head l ∧
      (b.current = none ∨ ∃ ax, ax ∈ l ∧ b.current = some ax.1) ∧
      (b.head = none → b.current = none) ∧
      (l = [] → b.current = none) := by
  obtain ⟨l, pos, hrep⟩ := rep_of_reachable hr
  have hcur : b.current = none ∨ ∃ ax, ax ∈ l ∧ b.current = some ax.1 := by
    cases pos with
    | none => exact Or.inl hrep.cursor
    | some k =>
      obtain ⟨ax, hk, hc⟩ := hrep.cursor
      exact Or.inr ⟨ax, List.getElem?_mem hk, hc⟩
  have hnil : l = [] → b.current = none := by
    rintro rfl
    rcases hcur with hc | ⟨ax, hax, -⟩
    · exact hc
    · simp at hax
  refine ⟨l, hrep.chain, hcur, fun hh => hnil ?_, hnil⟩
  have := hrep.chain.head_eq
  rw [hh] at this
  cases l with
  | nil => rfl
  | cons ax l1 => simp at this

/-- C19, witness: the bag holding "a", "bb", "ccc" at the end of a
traversal, and the new bag. -/
theorem C19_cursor_valid_witness :
    (Reachable exHeapEnd exBagEnd ∧
      ∃ l, Chain exHeapEnd exBagEnd.head l ∧
        (exBagEnd.current = none ∨ ∃ ax, ax ∈ l ∧ exBagEnd.current = some ax.1) ∧
        (exBagEnd.head = none → exBagEnd.current = none) ∧
        (l = [] → exBagEnd.current = none)) ∧
    (Reachable emptyHeap newBag ∧
      ∃ l, Chain emptyHeap newBag.head l ∧
        (newBag.current = none ∨ ∃ ax, ax ∈ l ∧ newBag.current = some ax.1) ∧
        (newBag.head = none → newBag.current = none) ∧
        (l = [] → newBag.current = none)) :=
  ⟨⟨reachable_of_run
      [Op.add exA, Op.add exB, Op.add exC, Op.itens true, Op.itens false, Op.itens false]
      (Reachable.newBag emptyHeap) rfl,
    C19_cursor_valid exHeapEnd exBagEnd
      (reachable_of_run
        [Op.add exA, Op.add exB, Op.add exC, Op.itens true, Op.itens false, Op.itens false]
        (Reachable.newBag emptyHeap) rfl)⟩,
   ⟨Reachable.newBag emptyHeap,
    C19_cursor_valid emptyHeap newBag (Reachable.newBag emptyHeap)⟩⟩

/-- C20: for every reachable bag state and either value of `init`,
`itens(bag, init)` is defined (no absent or dangling cell is read); whenever
it gets past its early returns the cursor refers to a present cell whose
block holds at least the stored number of bytes; and a count other than zero
guarantees that `head` refers to a present cell. -/
theorem C20_no_null_dereference (h : Heap) (b : bag) (init : Bool) (hr : Reachable h b) :
    (∃ res, itens h b init = some res) ∧
    (∀ h1 b1 p, itens h b init = some (h1, b1, some p) →
      ∃ a nd x, b1.current = some a ∧ h.nodes[a]? = some nd ∧
        h.bufs[nd.item]? = some x ∧ nd.nItem ≤ x.length) ∧
    (isEmpty b = false → ∃ a nd, b.head = some a ∧ h.nodes[a]? = some nd) := by
  obtain ⟨l, pos, hrep⟩ := rep_of_reachable hr
  obtain ⟨h1, b1, r, e1, -⟩ := itens_spec hrep init
  refine ⟨⟨_, e1⟩, ?_, ?_⟩
  · intro h2 b2 p e
    unfold itens at e
    split at e
    · simp at e
    · split at e
      · obtain ⟨rfl, a, nd, x, g1, g2, g3, g4⟩ := copyCurrent_inv e
        exact ⟨a, nd, x, g1, g2, g3, g4⟩
      · split at e
        · simp at e
        · split at e
          · cases e
          · split at e
            · simp at e
            · obtain ⟨rfl, a, nd, x, g1, g2, g3, g4⟩ := copyCurrent_inv e
              exact ⟨a, nd, x, g1, g2, g3, g4⟩
  · intro he
    have hs : b.size ≠ 0 := by simpa [isEmpty] using he
    obtain ⟨⟨a, x⟩, l1, rfl⟩ := List.exists_cons_of_ne_nil (hrep.ne_nil hs)
    obtain ⟨hp, nd, g1, -⟩ := hrep.chain
    exact ⟨a, nd, hp, g1⟩

/-- C20, witness: a reset call on the bag holding "a", "bb", "ccc". -/
theorem C20_no_null_dereference_witness :
    Reachable exHeap exBag ∧
    (∃ res, itens exHeap exBag true = some res) ∧
    (∀ h1 b1 p, itens exHeap exBag true = some (h1, b1, some p) →
      ∃ a nd x, b1.current = some a ∧ exHeap.nodes[a]? = some nd ∧
        exHeap.bufs[nd.item]? = some x ∧ nd.nItem ≤ x.length) ∧
    (isEmpty exBag = false → ∃ a nd, exBag.head = some a ∧ exHeap.nodes[a]? = some nd) :=
  ⟨reachable_of_run [Op.add exA, Op.add exB, Op.add exC] (Reachable.newBag emptyHeap) rfl,
   C20_no_null_dereference exHeap exBag true
    (reachable_of_run [Op.add exA, Op.add exB, Op.add exC] (Reachable.newBag emptyHeap) rfl)⟩

/-- In this model, where the count wraps at 32 bits:
`add` leaves the cursor field unchanged, and for every
reachable bag whose cursor is on a cell `p` (position `k` of the chain), with
a count that is not zero before the `add` and not zero after it, the results
of any number of advance calls `itens(bag, FALSE)` made after an `add` are the
same as they would have been without the `add`: the items after `p`, then
absent.  The newly added item is what a later `itens(bag, TRUE)` returns. -/
theorem add_keeps_iteration_when_count_nonzero (h : Heap) (b : bag) (p item n : Nat) (bs : List Byte)
    (hr : Reachable h b) (hp : b.current = some p)
    (hb : h.bufs[item]? = some bs) (hn : n ≤ bs.length)
    (hs : b.size ≠ 0) (hs1 : wrapInt (b.size + 1) ≠ 0) :
    ∃ h1 b1 l k ax, add h b item n = some (h1, b1) ∧ b1.current = b.current ∧
      Chain h b.head l ∧ l[k]? = some ax ∧ ax.1 = p ∧
      (∀ j, (calls h1 b1 (List.replicate j false)).map (fun t => t.1)
          = (calls h b (List.replicate j false)).map (fun t => t.1)) ∧
      (calls h1 b1 (List.replicate (l.length - k) false)).map (fun t => t.1)
        = some ((l.drop (k + 1)).map (fun ay => some ay.2) ++ [none]) ∧
      (calls h1 b1 [true]).map (fun t => t.1) = some [some (bs.take n)] := by
  obtain ⟨l, pos, hrep⟩ := rep_of_reachable hr
  obtain ⟨k, rfl⟩ : ∃ k, pos = some k := by
    cases pos with
    | none =>
      have : b.current = none := hrep.cursor
      rw [hp] at this
      cases this
    | some k => exact ⟨k, rfl⟩
  obtain ⟨ax, hk, hc⟩ := hrep.cursor
  have hax : ax.1 = p := by
    rw [hp] at hc
    exact (Option.some.inj hc).symm
  have hklt := getElem?_lt hk
  obtain ⟨h1, b1, e1, e2, -, e4, e5, -⟩ := add_spec hrep hb hn
  have hs1b : b1.size ≠ 0 := by rw [e5]; exact hs1
  have hsame : ∀ j, (calls h1 b1 (List.replicate j false)).map (fun t => t.1)
      = (calls h b (List.replicate j false)).map (fun t => t.1) := by
    intro j
    obtain ⟨h2, b2, f1, -⟩ := calls_spec (List.replicate j false) e2
    obtain ⟨h3, b3, g1, -⟩ := calls_spec (List.replicate j false) hrep
    rw [f1, g1]
    simp only [Option.map]
    exact congrArg some
      (absCalls_cons_false (h.nodes.length, bs.take n) l hs hs1b j (some k))
  refine ⟨h1, b1, l, k, ax, e1, e4, hrep.chain, hk, hax, hsame, ?_, ?_⟩
  · rw [hsame]
    obtain ⟨h3, b3, g1, -⟩ := calls_spec (List.replicate (l.length - k) false) hrep
    rw [g1]
    obtain ⟨m, hm⟩ : ∃ m, l.length - k = m + 1 := ⟨l.length - k - 1, by omega⟩
    rw [hm, absCalls_advance l b.size hs m k (by omega)]
    rfl
  · obtain ⟨h2, b2, f1, -⟩ := calls_spec [true] e2
    rw [f1]
    simp [absCalls, absItens, hs1b]

/-- An example:
the bag holding "a", "bb", "ccc" with the cursor on the
head cell, and an `add` of the buffer at address 0. -/
theorem add_keeps_iteration_when_count_nonzero_example :
    Reachable exHeapEnd { exBagEnd with current := some 2 } ∧
    ∃ h1 b1 l k ax, add exHeapEnd { exBagEnd with current := some 2 } 0 1 = some (h1, b1) ∧
      b1.current = some 2 ∧
      Chain exHeapEnd (some 2) l ∧ l[k]? = some ax ∧ ax.1 = 2 ∧
      (∀ j, (calls h1 b1 (List.replicate j false)).map (fun t => t.1)
          = (calls exHeapEnd { exBagEnd with current := some 2 }
              (List.replicate j false)).map (fun t => t.1)) ∧
      (calls h1 b1 (List.replicate (l.length - k) false)).map (fun t => t.1)
        = some ((l.drop (k + 1)).map (fun ay => some ay.2) ++ [none]) ∧
      (calls h1 b1 [true]).map (fun t => t.1) = some [some (exA.take 1)] := by
  have h0 : Reachable exHeap exBag :=
    reachable_of_run [Op.add exA, Op.add exB, Op.add exC] (Reachable.newBag emptyHeap) rfl
  have h1 : Reachable (store exHeap exC).1 { exBagEnd with current := some 2 } :=
    Reachable.itens true h0 rfl
  have h3 : Reachable exHeapEnd { exBagEnd with current := some 2 } :=
    Reachable.store exA (Reachable.store exB h1)
  exact ⟨h3, add_keeps_iteration_when_count_nonzero exHeapEnd { exBagEnd with current := some 2 } 2 0 1 exA
    h3 rfl rfl (by decide) (by decide) (by decide)⟩

/-- C17, failing input: "5" and "6" are added and a reset puts the cursor
on the cell of "6"; 2^32 - 3 more items bring the count to -1.  An advance
call now returns "5"; after one more `add` the count is zero and the same
advance call returns absent. -/
theorem C17_failing_input :
    ((run emptyHeap newBag [Op.add [5], Op.add [6], Op.itens true]).bind
        (fun s => (addAll s.1 s.2 (List.replicate 4294967293 [])).bind
          (fun t => calls t.1 t.2 [false]))).map (fun u => u.1) = some [some [5]] ∧
    ((run emptyHeap newBag [Op.add [5], Op.add [6], Op.itens true]).bind
        (fun s => (addAll s.1 s.2 (List.replicate 4294967293 [])).bind
          (fun t => (add (store t.1 [7]).1 t.2 (store t.1 [7]).2 1).bind
            (fun v => calls v.1 v.2 [false])))).map (fun u => u.1) = some [none] :=
  advance_after_count_minus_one (List.replicate 4294967293 [])
    (by rw [List.length_replicate]; decide)

/-- C13: for every reachable bag, holding N items in the N cells `cs` of its
chain (distinct cells with distinct blocks), `freeBag` is defined, given room
for N nested calls, and releases each of the N item blocks exactly once, each
of the N cells exactly once, and then the bag structure exactly once: 2N + 1
releases, none made twice, in the order given by `released`. -/
theorem C13_destruction_safety (h : Heap) (b : bag) (hr : Reachable h b) :
    ∃ cs l, Cells h b.head cs ∧ Chain h b.head l ∧ l.length = cs.length ∧
      (cs.map Prod.fst).Nodup ∧ (cs.map (fun c => c.2.item)).Nodup ∧
      ∀ fuel, cs.length ≤ fuel → ∃ t d, freeBag h fuel b = some (t, d) ∧
        t = released cs ++ [Freed.bagStruct] ∧ t.Nodup ∧
        t.length = 2 * cs.length + 1 ∧
        (∀ c ∈ cs, t.count (Freed.item c.2.item) = 1 ∧ t.count (Freed.cell c.1) = 1) ∧
        t.count Freed.bagStruct = 1 := by
  obtain ⟨cs, hown⟩ := owns_of_reachable hr
  obtain ⟨l, pos, hrep⟩ := rep_of_reachable hr
  refine ⟨cs, l, hown.cells, hrep.chain, Cells.length_eq hown.cells hrep.chain,
    hown.addrs, hown.items, fun fuel hf => ?_⟩
  have hnd := releases_nodup hown.addrs hown.items
  refine ⟨_, _, freeBag_spec hown hf, rfl, hnd, ?_, fun c hc => ⟨?_, ?_⟩, ?_⟩
  · simp [released_length]
  · exact List.count_eq_one_of_mem hnd
      (List.mem_append_left _ (mem_released.mpr ⟨c, hc, Or.inl rfl⟩))
  · exact List.count_eq_one_of_mem hnd
      (List.mem_append_left _ (mem_released.mpr ⟨c, hc, Or.inr rfl⟩))
  · exact List.count_eq_one_of_mem hnd (by simp)

/-- C13, witness: the bag holding "a", "bb", "ccc". -/
theorem C13_destruction_safety_witness :
    Reachable exHeap exBag ∧
    ∃ cs l, Cells exHeap exBag.head cs ∧ Chain exHeap exBag.head l ∧
      l.length = cs.length ∧
      (cs.map Prod.fst).Nodup ∧ (cs.map (fun c => c.2.item)).Nodup ∧
      ∀ fuel, cs.length ≤ fuel → ∃ t d, freeBag exHeap fuel exBag = some (t, d) ∧
        t = released cs ++ [Freed.bagStruct] ∧ t.Nodup ∧
        t.length = 2 * cs.length + 1 ∧
        (∀ c ∈ cs, t.count (Freed.item c.2.item) = 1 ∧ t.count (Freed.cell c.1) = 1) ∧
        t.count Freed.bagStruct = 1 :=
  ⟨reachable_of_run [Op.add exA, Op.add exB, Op.add exC] (Reachable.newBag emptyHeap) rfl,
   C13_destruction_safety exHeap exBag
    (reachable_of_run [Op.add exA, Op.add exB, Op.add exC] (Reachable.newBag emptyHeap) rfl)⟩

/-- C15 (as amended): for every reachable bag of N items `freeBag` ends, given
room for N nested calls, and the nesting depth of the `freeNode` calls made
while the cells are released is N + 1: one nested call per cell and the call
on `NULL`. -/
theorem C15_release_depth (h : Heap) (b : bag) (hr : Reachable h b) :
    ∃ cs l, Cells h b.head cs ∧ Chain h b.head l ∧ l.length = cs.length ∧
      ∀ fuel, cs.length ≤ fuel → ∃ t, freeBag h fuel b = some (t, cs.length + 1) := by
  obtain ⟨cs, hown⟩ := owns_of_reachable hr
  obtain ⟨l, pos, hrep⟩ := rep_of_reachable hr
  exact ⟨cs, l, hown.cells, hrep.chain, Cells.length_eq hown.cells hrep.chain,
    fun fuel hf => ⟨_, freeBag_spec hown hf⟩⟩

/-- C15, witness: the bag holding "a", "bb", "ccc". -/
theorem C15_release_depth_witness :
    Reachable exHeap exBag ∧
    ∃ cs l, Cells exHeap exBag.head cs ∧ Chain exHeap exBag.head l ∧
      l.length = cs.length ∧
      ∀ fuel, cs.length ≤ fuel →
        ∃ t, freeBag exHeap fuel exBag = some (t, cs.length + 1) :=
  ⟨reachable_of_run [Op.add exA, Op.add exB, Op.add exC] (Reachable.newBag emptyHeap) rfl,
   C15_release_depth exHeap exBag
    (reachable_of_run [Op.add exA, Op.add exB, Op.add exC] (Reachable.newBag emptyHeap) rfl)⟩

/-- C15, counterexample: no constant bounds the nesting depth of the
`freeNode` calls over all bags built by `add` calls; thus the bag holding "a",
"bb", "ccc" is released with depth 4. -/
theorem C15_counterexample :
    (¬ ∃ bound : Nat, ∀ (xs : List (List Byte)) (h : Heap) (b : bag) (fuel : Nat)
        (t : List Freed) (d : Nat),
        addAll emptyHeap newBag xs = some (h, b) → freeBag h fuel b = some (t, d) →
        d ≤ bound) ∧
    freeBag exHeap 3 exBag
      = some ([Freed.item 1, Freed.cell 0, Freed.item 3, Freed.cell 1, Freed.item 5,
               Freed.cell 2, Freed.bagStruct], 4) := by
  refine ⟨?_, by decide⟩
  rintro ⟨bound, hbound⟩
  obtain ⟨h, b, l, e1, e2, e3, -⟩ :=
    addAll_newBag_chain emptyHeap (List.replicate bound [])
  obtain ⟨cs, hown⟩ :=
    owns_of_reachable (reachable_addAll _ (Reachable.newBag emptyHeap) e1)
  have hlen : cs.length = bound := by
    rw [← Cells.length_eq hown.cells e2.chain, e3, List.length_replicate]
  have := hbound _ h b bound _ _ e1 (freeBag_spec hown (le_of_eq hlen))
  omega

end BagC
